import Mathlib

/-!
Radiation-source exploration on a 2D grid.

A verification development for the `radiation` library: the trajectory and
measurement codec, the belief map (`GridMap2D`), the planner (`ExplorerLP`)
and the driver loop of `run_explorer_lp`.

Conventions of the embedding.

* `double` values are modelled in exact arithmetic.  The definitions are
  written over an arbitrary linearly ordered field `α` (so they evaluate on
  `ℚ`) and take the logarithm as a parameter; the theorems instantiate them
  at `ℝ` and `Real.log`.
* A `for` loop with an early `return` is the combinator `forLoop` over the
  list of its indices.
* Random draws are inputs: a function that draws from the generator takes
  the drawn values as an argument.
* `unsigned int` values are natural numbers below `2 ^ 32`.  Arithmetic that
  the source carries out in `unsigned int`, and a wider value stored into an
  `unsigned int`, is reduced modulo `2 ^ 32` (`uintWidth`).
* Division is the division of the field, so `x / 0 = 0`; the statements
  about `GenerateSources` assume a total belief different from zero, those
  about the constructor a grid with at least one cell.
* Classes and libraries whose code is not at hand enter as parameters: the
  sensor (`Sensor2D`), the pose dynamics (`MoveBy`), the solver
  (`ceresSolve`), the explorer operations of the driver.
-/

namespace radiation

/-! ## Codec (`encoding.h`) -/

/-- Digit order of the positional encoding: the spec leaves open whether the
first element of a sequence is the least or the most significant digit, and
asks only that the encoder and the decoder agree. -/
inductive DigitOrder where
  | leastFirst
  | mostFirst
  deriving DecidableEq, Repr

/-- Value of a digit sequence in base `radix`, first element least
significant. -/
def encodeLeastFirst (radix : Nat) : List Nat → Nat
  | [] => 0
  | d :: ds => d + radix * encodeLeastFirst radix ds

/-- The `length` lowest digits of `id` in base `radix`, least significant
first. -/
def decodeLeastFirst (radix : Nat) : Nat → Nat → List Nat
  | 0, _ => []
  | n + 1, id => id % radix :: decodeLeastFirst radix n (id / radix)

/-- Positional encoding of a sequence in base `radix` in the given digit
order. -/
def encodeSequence (order : DigitOrder) (radix : Nat) (seq : List Nat) : Nat :=
  match order with
  | .leastFirst => encodeLeastFirst radix seq
  | .mostFirst => encodeLeastFirst radix seq.reverse

/-- Inverse of `encodeSequence`: the sequence of `length` digits of `id`. -/
def decodeSequence (order : DigitOrder) (radix length id : Nat) : List Nat :=
  match order with
  | .leastFirst => decodeLeastFirst radix length id
  | .mostFirst => (decodeLeastFirst radix length id).reverse

/-- Modelled from the spec: `EncodeMeasurements` of `encoding.h`, whose
definition is not part of the sources at hand.  The spec describes it as the
positional encoding of the measurement sequence in radix `num_sources + 1`;
the callers pass the largest measurement value, so the radix is
`max_measurement + 1`.  Ids are the spec's non-negative integers. -/
def EncodeMeasurements (order : DigitOrder) (measurements : List Nat)
    (max_measurement : Nat) : Nat :=
  encodeSequence order (max_measurement + 1) measurements

/-- Modelled from the spec: `DecodeMeasurements` of `encoding.h`, the inverse
decoder of `EncodeMeasurements`, returning `num_measurements` values. -/
def DecodeMeasurements (order : DigitOrder) (id max_measurement num_measurements : Nat) :
    List Nat :=
  decodeSequence order (max_measurement + 1) num_measurements id

/-- Modelled from the spec: `EncodeTrajectory` of `encoding.h`.  A
`Movement2D` is one of the `b` distinct movements fixed by the angular step
and is represented by its index in `[0, b)`; the trajectory id is the
positional encoding of the movement sequence in radix `b`. -/
def EncodeTrajectory (order : DigitOrder) (b : Nat) (movements : List Nat) : Nat :=
  encodeSequence order b movements

/-- Modelled from the spec: the movement sequence that `DecodeTrajectory`
recovers from a trajectory id before replaying it. -/
def DecodeMovements (order : DigitOrder) (b id num_steps : Nat) : List Nat :=
  decodeSequence order b num_steps id

/-- Replay of a movement sequence from a pose.  `MoveBy pose step` is
`GridPose2D::MoveBy`: `none` when the movement would leave the grid,
otherwise the pose after the movement.  The result lists the pose reached
after each movement; it is `none` as soon as a movement is rejected. -/
def replayMovements {Pose : Type} (MoveBy : Pose → Nat → Option Pose) :
    Pose → List Nat → Option (List Pose)
  | _, [] => some []
  | pose, step :: rest =>
    match MoveBy pose step with
    | none => none
    | some next =>
      match replayMovements MoveBy next rest with
      | none => none
      | some poses => some (next :: poses)

/-- Modelled from the spec: `DecodeTrajectory` of `encoding.h`: decode the id
into `num_steps` movements and replay each of them from `start_pose` to
reconstruct the pose sequence.  The spec does not say what the replay of a
rejected movement yields; the model reports it as `none`. -/
def DecodeTrajectory {Pose : Type} (MoveBy : Pose → Nat → Option Pose)
    (order : DigitOrder) (b id num_steps : Nat) (start_pose : Pose) : Option (List Pose) :=
  replayMovements MoveBy start_pose (DecodeMovements order b id num_steps)

/-! ## Control flow -/

/-- Outcome of one pass through a loop body: the enclosing function returned
with a value, or the loop goes on with a new state. -/
inductive LoopStep (ρ σ : Type) where
  | ret (r : ρ)
  | next (s : σ)

/-- A `for` loop over the listed indices whose body may return from the
enclosing function. -/
def forLoop {ι ρ σ : Type} (body : ι → σ → LoopStep ρ σ) : List ι → σ → LoopStep ρ σ
  | [], s => .next s
  | i :: rest, s =>
    match body i s with
    | .ret r => .ret r
    | .next s1 => forLoop body rest s1

/-! ## Belief map (`grid_map_2d.cpp`) -/

/-- A source at an integer grid location: `Source2D(ii, jj)` with `GetIndexX`
and `GetIndexY`. -/
structure Source2D where
  x : Nat
  y : Nat
  deriving DecidableEq, Repr

/-- The members of `GridMap2D`.  `belief ii jj` is `belief_(ii, jj)`; only the
entries with `ii < num_rows` and `jj < num_cols` are part of the matrix. -/
structure GridMap2D (α : Type) where
  num_rows : Nat
  num_cols : Nat
  num_sources : Nat
  regularizer : α
  belief : Nat → Nat → α
  viewed : List (List Nat)
  measurements : List Nat

/-- Number of values of an `unsigned int`. -/
def uintWidth : Nat := 2 ^ 32

/-- The constructor `GridMap2D::GridMap2D` (named `construct`, the name of the
structure being taken): every entry of the belief matrix is
`1 * num_sources` divided by `num_rows_ * num_cols_`, a product of two
`unsigned int`; the histories start empty. -/
def GridMap2D.construct {α : Type} [LinearOrderedField α]
    (num_rows num_cols num_sources : Nat) (regularizer : α) : GridMap2D α :=
  { num_rows := num_rows
    num_cols := num_cols
    num_sources := num_sources
    regularizer := regularizer
    belief := fun _ _ => (1 * (num_sources : α)) / (((num_rows * num_cols) % uintWidth : Nat) : α)
    viewed := []
    measurements := [] }

/-- Sum of the entries of a `num_rows` by `num_cols` matrix: `belief_.sum()`. -/
def matrixSum {α : Type} [LinearOrderedField α] (num_rows num_cols : Nat)
    (belief : Nat → Nat → α) : α :=
  ((List.range num_rows).map fun ii => ((List.range num_cols).map fun jj => belief ii jj).sum).sum

/-- Local variables of the walk in `GenerateSources`. -/
structure WalkState (α : Type) where
  sources : List Source2D
  current_index : Nat
  current_cdf : α

/-- The `while (current_cdf >= cdf_evals[current_index])` loop of
`GenerateSources` at cell `(ii, jj)`.  `none` is the read of `cdf_evals` past
its end (undefined behaviour in the source); `ret` is the `return true`. -/
def whileLoop {α : Type} [LinearOrderedField α] (cdf_evals : List α) (num_sources ii jj : Nat)
    (s : WalkState α) : Option (LoopStep (List Source2D) (WalkState α)) :=
  if h : s.current_index < cdf_evals.length then
    if s.current_cdf ≥ cdf_evals[s.current_index] then
      let sources := s.sources ++ [Source2D.mk ii jj]
      if sources.length = num_sources then
        some (.ret sources)
      else
        whileLoop cdf_evals num_sources ii jj
          { sources := sources, current_index := s.current_index + 1,
            current_cdf := s.current_cdf }
    else
      some (.next s)
  else
    none
termination_by cdf_evals.length - s.current_index

/-- Body of the inner `for` loop of `GenerateSources`: add the normalised
belief of cell `(ii, jj)` to the running CDF, then run the `while` loop.  A
returned `none` is the out-of-bounds read. -/
def cellStep {α : Type} [LinearOrderedField α] (belief : Nat → Nat → α) (total_belief : α)
    (cdf_evals : List α) (num_sources ii jj : Nat) (s : WalkState α) :
    LoopStep (Option (List Source2D)) (WalkState α) :=
  match whileLoop cdf_evals num_sources ii jj
      { s with current_cdf := s.current_cdf + belief ii jj / total_belief } with
  | none => .ret none
  | some (.ret sources) => .ret (some sources)
  | some (.next s1) => .next s1

/-- The two nested `for` loops of `GenerateSources`. -/
def walkGrid {α : Type} [LinearOrderedField α] (belief : Nat → Nat → α) (total_belief : α)
    (cdf_evals : List α) (num_sources num_rows num_cols : Nat) (s : WalkState α) :
    LoopStep (Option (List Source2D)) (WalkState α) :=
  forLoop (fun ii s1 =>
      forLoop (fun jj s2 => cellStep belief total_belief cdf_evals num_sources ii jj s2)
        (List.range num_cols) s1)
    (List.range num_rows) s

/-- The vector `cdf_evals` of `GenerateSources` after `std::sort`: the first
`num_sources` values of the generator in increasing order.  `unif k` is the
value of the `k`-th call of `unif(rng_)`. -/
def sortedDraws {α : Type} [LinearOrderedField α] (num_sources : Nat) (unif : Nat → α) :
    List α :=
  ((List.range num_sources).map unif).insertionSort (· ≤ ·)

/-- `GridMap2D::GenerateSources`.  `unif k` is the value of the `k`-th call of
`unif(rng_)`.  The result is `none` when the source reads `cdf_evals` out of
bounds, otherwise the returned flag with the contents of `sources`. -/
def GridMap2D.GenerateSources {α : Type} [LinearOrderedField α] (m : GridMap2D α)
    (unif : Nat → α) : Option (Bool × List Source2D) :=
  let total_belief := matrixSum m.num_rows m.num_cols m.belief
  let cdf_evals := sortedDraws m.num_sources unif
  match walkGrid m.belief total_belief cdf_evals m.num_sources m.num_rows m.num_cols
      { sources := [], current_index := 0, current_cdf := 0 } with
  | .ret none => none
  | .ret (some sources) => some (true, sources)
  | .next s => some (false, s.sources)

/-- The cells `(ii, jj)` of a grid in the order of the walk of
`GenerateSources`: row by row, each row by increasing column. -/
def gridCells (num_rows num_cols : Nat) : List (Nat × Nat) :=
  (List.range num_rows).flatMap fun ii => (List.range num_cols).map fun jj => (ii, jj)

/-- Cumulative normalised belief mass of the first `t + 1` cells of `cells`. -/
def cumulativeBelief {α : Type} [LinearOrderedField α] (belief : Nat → Nat → α)
    (total_belief : α) (cells : List (Nat × Nat)) (t : Nat) : α :=
  ((cells.take (t + 1)).map fun c => belief c.1 c.2 / total_belief).sum

/-- Source number `i` lies at the first cell of `cells` whose cumulative
normalised belief mass is at least `e`. -/
def PlacedAt {α : Type} [LinearOrderedField α] (belief : Nat → Nat → α) (total_belief : α)
    (cells : List (Nat × Nat)) (sources : List Source2D) (i : Nat) (e : α) : Prop :=
  ∃ t c, cells[t]? = some c ∧ sources[i]? = some (Source2D.mk c.1 c.2) ∧
    e ≤ cumulativeBelief belief total_belief cells t ∧
    ∀ t1, t1 < t → cumulativeBelief belief total_belief cells t1 < e

/-- Per-cell term of `GridMap2D::Entropy`. -/
def bernoulliEntropy {α : Type} [LinearOrderedField α] (log : α → α) (p : α) : α :=
  if p > 1e-8 ∧ p < 1 - 1e-8 then -p * log p - (1 - p) * log (1 - p) else 0

/-- `GridMap2D::Entropy`. -/
def GridMap2D.Entropy {α : Type} [LinearOrderedField α] (log : α → α) (m : GridMap2D α) : α :=
  (List.range m.num_rows).foldl
    (fun entropy ii =>
      (List.range m.num_cols).foldl
        (fun entropy jj => entropy + bernoulliEntropy log (m.belief ii jj)) entropy)
    0

/-- Normalisation of one column of `pzx` in `GenerateEntropyVector`: a column
whose sum is below one is left as it is, any other is divided by its sum. -/
def normalizeColumn {α : Type} [LinearOrderedField α] (col : List α) : List α :=
  if col.sum < 1 then col else col.map (· / col.sum)

/-- Entry `hzx(jj)` of the conditional entropy vector, from the normalised
column `jj` of `pzx`. -/
def columnEntropy {α : Type} [LinearOrderedField α] (log : α → α) (col : List α) : α :=
  col.foldl (fun h p => if p < 0.01 ∨ p > 1 - 0.01 then h else h - p * log p) 0

/-- The last loop of `GenerateEntropyVector` over the normalised columns;
`none` is a failure of `CHECK(hzx(jj) >= 0.0)`. -/
def entropyLoop {α : Type} [LinearOrderedField α] (log : α → α) :
    List (List α) → Option (List α)
  | [] => some []
  | col :: rest =>
    let h := columnEntropy log col
    if h ≥ 0 then
      match entropyLoop log rest with
      | none => none
      | some hs => some (h :: hs)
    else none

/-- A count vector with entry `measurement_id` raised by one:
`counts(measurement_id) += 1.0`. -/
def incrementAt {α : Type} [LinearOrderedField α] : List α → Nat → List α
  | [], _ => []
  | c :: cs, 0 => (c + 1) :: cs
  | c :: cs, i + 1 => c :: incrementAt cs i

/-- The count vector of a trajectory met for the first time:
`VectorXd::Zero(kNumMeasurements)` with entry `measurement_id` set to 1. -/
def unitCounts {α : Type} [LinearOrderedField α] (kNumMeasurements measurement_id : Nat) :
    List α :=
  (List.replicate kNumMeasurements 0).set measurement_id 1

/-- Recording one sample in `zx_samples`, a `std::map` kept as the list of its
entries by increasing key: a trajectory id that is not yet a key is inserted
at its place with the unit count vector, the entry of an existing key has its
count of `measurement_id` raised by one. -/
def recordSample {α : Type} [LinearOrderedField α]
    (kNumMeasurements trajectory_id measurement_id : Nat) :
    List (Nat × List α) → List (Nat × List α)
  | [] => [(trajectory_id, unitCounts kNumMeasurements measurement_id)]
  | (key, counts) :: rest =>
    if trajectory_id < key then
      (trajectory_id, unitCounts kNumMeasurements measurement_id) :: (key, counts) :: rest
    else if trajectory_id = key then
      (key, incrementAt counts measurement_id) :: rest
    else
      (key, counts) :: recordSample kNumMeasurements trajectory_id measurement_id rest

/-- The sampling loop of `GenerateEntropyVector`, from the pairs
`(trajectory_id, measurement_id)` of the samples that were not skipped, in
the order they were drawn.  `none` is a write outside the count vector. -/
def sampleLoop {α : Type} [LinearOrderedField α] (kNumMeasurements : Nat) :
    List (Nat × Nat) → List (Nat × List α) → Option (List (Nat × List α))
  | [], zx_samples => some zx_samples
  | (trajectory_id, measurement_id) :: rest, zx_samples =>
    if measurement_id < kNumMeasurements then
      sampleLoop kNumMeasurements rest
        (recordSample kNumMeasurements trajectory_id measurement_id zx_samples)
    else
      none

/-- The constant `kNumMeasurements = pow(num_sources_ + 1, num_steps)` of
`GenerateEntropyVector`; `none` when the power does not fit the
`unsigned int` it is converted to. -/
def numMeasurements (num_sources num_steps : Nat) : Option Nat :=
  if ((num_sources + 1) % uintWidth) ^ num_steps < uintWidth then
    some (((num_sources + 1) % uintWidth) ^ num_steps)
  else
    none

/-- The part of `GenerateEntropyVector` that follows the sampling loop.
`zx_samples` is the content of the ordered map, by increasing key.  The
result is `(hzx, trajectory_ids)`, or `none` when the `CHECK` fails. -/
def entropyVectorOfSamples {α : Type} [LinearOrderedField α] (log : α → α)
    (zx_samples : List (Nat × List α)) : Option (List α × List Nat) :=
  let trajectory_ids := zx_samples.map Prod.fst
  let pzx := (zx_samples.map Prod.snd).map normalizeColumn
  match entropyLoop log pzx with
  | none => none
  | some hzx => some (hzx, trajectory_ids)

/-- What `GridMap2D` uses of a `Sensor2D` (a pose with a field of view, whose
class is not part of these sources): the measurement `Sense(sources)` and
the visibility test `VoxelInView(ii, jj)`. -/
structure Sensor2D where
  Sense : List Source2D → Nat
  VoxelInView : Nat → Nat → Bool

/-- A residual block handed to the solver: `BeliefError::Create` for one
observation, or `BeliefRegularization::Create` for the whole grid. -/
inductive ResidualBlock (α : Type) where
  | beliefError (num_rows num_cols : Nat) (viewed : List Nat) (measurement : Nat)
  | beliefRegularization (num_rows num_cols num_sources : Nat) (weight : α)

/-- The `ceres::Problem` that `SolveLeastSquares` builds: the residual blocks
added and the bounds set, each bound with the index of its parameter. -/
structure Problem (α : Type) where
  residual_blocks : List (ResidualBlock α)
  lower_bounds : List (Nat × α)
  upper_bounds : List (Nat × α)

/-- The array `belief_.data()`: the matrix in column-major order. -/
def GridMap2D.data {α : Type} (m : GridMap2D α) (idx : Nat) : α :=
  m.belief (idx % m.num_rows) (idx / m.num_rows)

/-- The problem set up by `SolveLeastSquares` before it calls the solver: one
`BeliefError` block per observation, one `BeliefRegularization` block
weighted by `regularizer_ * viewed_.size()`, and the bounds 0 and 1 on the
indices below `num_rows_ * num_cols_` (an `unsigned int` product). -/
def GridMap2D.leastSquaresProblem {α : Type} [LinearOrderedField α] (m : GridMap2D α) :
    Problem α :=
  let num_cells := (m.num_rows * m.num_cols) % uintWidth
  let errors := List.zipWith
    (fun voxels measurement =>
      ResidualBlock.beliefError m.num_rows m.num_cols voxels measurement)
    m.viewed m.measurements
  let regularization := ResidualBlock.beliefRegularization m.num_rows m.num_cols
    m.num_sources (m.regularizer * (m.viewed.length : α))
  { residual_blocks := errors ++ [regularization]
    lower_bounds := (List.range num_cells).map fun ii => (ii, 0)
    upper_bounds := (List.range num_cells).map fun ii => (ii, 1) }

/-- `GridMap2D::SolveLeastSquares`.  `ceresSolve` stands for `ceres::Solve`
followed by `summary.IsSolutionUsable()`: from the problem and the current
parameter array it gives the array it leaves and the flag.  `none` is
undefined behaviour of the source: a read of `measurements_` past its end,
or the overflow of the `int` counter of the bounds loop. -/
def GridMap2D.SolveLeastSquares {α : Type} [LinearOrderedField α]
    (ceresSolve : Problem α → (Nat → α) → (Nat → α) × Bool) (m : GridMap2D α) :
    Option (Bool × GridMap2D α) :=
  if m.viewed.length ≤ m.measurements.length ∧
      (m.num_rows * m.num_cols) % uintWidth < 2 ^ 31 then
    let r := ceresSolve m.leastSquaresProblem m.data
    some (r.2, { m with belief := fun ii jj => r.1 (ii + jj * m.num_rows) })
  else
    none

/-- Modelled from the spec: what `ceres::Solve`, a library whose code is not
part of these sources, leaves behind.  The spec has the solver constrain
every belief to the bounds it is given and report the usability of the
solution; after a failed solve the belief matrix retains its last value.
`r` is the result of the solver on `problem` from the parameter array `x`:
when the flag is set, every parameter lies within each bound that the
problem sets on its index; when it is not, the array is unchanged. -/
def SolveOutcome {α : Type} [LinearOrderedField α] (problem : Problem α) (x : Nat → α)
    (r : (Nat → α) × Bool) : Prop :=
  (r.2 = true →
    (∀ b ∈ problem.lower_bounds, b.2 ≤ r.1 b.1) ∧
    (∀ b ∈ problem.upper_bounds, r.1 b.1 ≤ b.2)) ∧
  (r.2 = false → r.1 = x)

/-- The loops of `Update` that collect the voxels in view: rows outside,
columns inside, the index `ii + jj * num_rows_` stored as `unsigned int`. -/
def voxelsInView (num_rows num_cols : Nat) (sensor : Sensor2D) : List Nat :=
  (List.range num_rows).foldl
    (fun voxels ii =>
      (List.range num_cols).foldl
        (fun voxels jj =>
          if sensor.VoxelInView ii jj then voxels ++ [(ii + jj * num_rows) % uintWidth]
          else voxels)
        voxels)
    []

/-- `GridMap2D::Update`.  `none` is a failed `CHECK(measurement <= num_sources_)`
or undefined behaviour inside `SolveLeastSquares`. -/
def GridMap2D.Update {α : Type} [LinearOrderedField α]
    (ceresSolve : Problem α → (Nat → α) → (Nat → α) × Bool) (m : GridMap2D α)
    (sensor : Sensor2D) (sources : List Source2D) (solve : Bool) :
    Option (Bool × GridMap2D α) :=
  let measurement := sensor.Sense sources
  if measurement ≤ m.num_sources then
    let voxels := voxelsInView m.num_rows m.num_cols sensor
    let m1 : GridMap2D α :=
      { m with viewed := m.viewed ++ [voxels], measurements := m.measurements ++ [measurement] }
    if solve then m1.SolveLeastSquares ceresSolve else some (true, m1)
  else
    none

/-- `GridMap2D::GenerateEntropyVector`, from the samples drawn: the sampling
loop fills the map, the rest turns it into `(hzx, trajectory_ids)`. -/
def GridMap2D.GenerateEntropyVector {α : Type} [LinearOrderedField α] (log : α → α)
    (m : GridMap2D α) (num_steps : Nat) (samples : List (Nat × Nat)) :
    Option (List α × List Nat) :=
  match numMeasurements m.num_sources num_steps with
  | none => none
  | some kNumMeasurements =>
    match sampleLoop kNumMeasurements samples [] with
    | none => none
    | some zx_samples => entropyVectorOfSamples log zx_samples

/-! ## Planner (`explorer_lp.cpp`) -/

/-- The arg-max loop of `PlanAhead`: the final `(max_value, trajectory_id)`. -/
def argMaxLoop {α : Type} [LinearOrderedField α] (hzx : List α) (trajectory_ids : List Nat) :
    α × Nat :=
  (List.range hzx.length).foldl
    (fun acc ii =>
      if hzx.getD ii 0 > acc.1 then (hzx.getD ii 0, trajectory_ids.getD ii 0) else acc)
    (-1, 0)

/-- Result of `PlanAhead`: `abort` is a failed `CHECK`, `failure` is
`return false`, `success` is `return true` with the decoded trajectory. -/
inductive PlanResult (Pose : Type) where
  | abort
  | failure
  | success (trajectory : List Pose)

/-- `ExplorerLP::PlanAhead`, from the output `(hzx, trajectory_ids)` of
`GenerateEntropyVector` on.  `decode id` stands for
`DecodeTrajectory(id, num_steps_, pose_, trajectory)`. -/
def PlanAhead {α Pose : Type} [LinearOrderedField α] (decode : Nat → List Pose)
    (hzx : List α) (trajectory_ids : List Nat) : PlanResult Pose :=
  if hzx.length = trajectory_ids.length then
    let r := argMaxLoop hzx trajectory_ids
    if r.1 < 0 then .failure else .success (decode r.2)
  else .abort

/-! ## Driver (`exec/run_explorer_lp/main.cpp`) -/

/-- Which way one call of `SingleIteration` went: the first `return`, the
`return` after a failed `PlanAhead`, or the step at the end. -/
inductive IterationStep where
  | returnedAtOnce
  | planFailed
  | tookStep
  deriving DecidableEq, Repr

/-- The globals of `main.cpp` that `SingleIteration` reads and writes. -/
structure Driver (Explorer : Type) where
  explorer : Explorer
  step_count : Nat

/-- `SingleIteration`.  `PlanAhead` and `TakeStep` are the two operations of
the explorer, each returning the explorer it leaves behind; `iterate_forever`
and `num_iterations` are the flags.  `step_count` is an `unsigned int` and
`FLAGS_num_iterations` an `int32`, so the comparison converts the flag to
`unsigned int`. -/
def SingleIteration {Explorer Trajectory Entropy : Type}
    (PlanAhead : Explorer → Option Trajectory × Explorer)
    (TakeStep : Explorer → Trajectory → Entropy × Explorer)
    (iterate_forever : Bool) (num_iterations : Int) (d : Driver Explorer) :
    IterationStep × Driver Explorer :=
  if !iterate_forever && decide (d.step_count < (num_iterations % (uintWidth : Int)).toNat) then
    (.returnedAtOnce, d)
  else
    match PlanAhead d.explorer with
    | (none, e1) => (.planFailed, { d with explorer := e1 })
    | (some trajectory, e1) =>
      (.tookStep,
        { explorer := (TakeStep e1 trajectory).2,
          step_count := (d.step_count + 1) % uintWidth })

/-! ## Codec lemmas -/

theorem decodeLeastFirst_length (radix n id : Nat) :
    (decodeLeastFirst radix n id).length = n := by
  induction n generalizing id with
  | zero => rfl
  | succ n ih => simp [decodeLeastFirst, ih]

theorem decodeLeastFirst_lt (radix : Nat) (hr : 0 < radix) (n id : Nat) :
    ∀ d ∈ decodeLeastFirst radix n id, d < radix := by
  induction n generalizing id with
  | zero => simp [decodeLeastFirst]
  | succ n ih =>
    intro d hd
    simp only [decodeLeastFirst, List.mem_cons] at hd
    rcases hd with rfl | hd
    · exact Nat.mod_lt _ hr
    · exact ih _ d hd

theorem decode_encodeLeastFirst (radix : Nat) (seq : List Nat)
    (h : ∀ d ∈ seq, d < radix) :
    decodeLeastFirst radix seq.length (encodeLeastFirst radix seq) = seq := by
  induction seq with
  | nil => rfl
  | cons d ds ih =>
    have hd : d < radix := h d (List.mem_cons_self _ _)
    have hds : ∀ e ∈ ds, e < radix := fun e he => h e (List.mem_cons_of_mem _ he)
    have hpos : 0 < radix := Nat.lt_of_le_of_lt (Nat.zero_le _) hd
    simp only [encodeLeastFirst, List.length_cons, decodeLeastFirst]
    rw [Nat.add_mul_mod_self_left, Nat.mod_eq_of_lt hd,
      Nat.add_mul_div_left _ _ hpos, Nat.div_eq_of_lt hd, Nat.zero_add, ih hds]

theorem encode_decodeLeastFirst (radix n id : Nat) (h : id < radix ^ n) :
    encodeLeastFirst radix (decodeLeastFirst radix n id) = id := by
  induction n generalizing id with
  | zero =>
    simp only [pow_zero, Nat.lt_one_iff] at h
    simp [decodeLeastFirst, encodeLeastFirst, h]
  | succ n ih =>
    have hdiv : id / radix < radix ^ n := by
      apply Nat.div_lt_of_lt_mul
      calc id < radix ^ (n + 1) := h
        _ = radix * radix ^ n := by ring
    simp only [decodeLeastFirst, encodeLeastFirst, ih _ hdiv]
    exact Nat.mod_add_div id radix

theorem encodeLeastFirst_lt (radix : Nat) (seq : List Nat)
    (h : ∀ d ∈ seq, d < radix) :
    encodeLeastFirst radix seq < radix ^ seq.length := by
  induction seq with
  | nil => simp [encodeLeastFirst]
  | cons d ds ih =>
    have hd : d < radix := h d (List.mem_cons_self _ _)
    have hds : ∀ e ∈ ds, e < radix := fun e he => h e (List.mem_cons_of_mem _ he)
    have ih1 := ih hds
    simp only [encodeLeastFirst, List.length_cons]
    calc d + radix * encodeLeastFirst radix ds
        < radix + radix * encodeLeastFirst radix ds := by omega
      _ = radix * (encodeLeastFirst radix ds + 1) := by ring
      _ ≤ radix * radix ^ ds.length := Nat.mul_le_mul_left _ ih1
      _ = radix ^ (ds.length + 1) := by ring

theorem decode_encodeSequence (order : DigitOrder) (radix : Nat) (seq : List Nat)
    (h : ∀ d ∈ seq, d < radix) :
    decodeSequence order radix seq.length (encodeSequence order radix seq) = seq := by
  cases order with
  | leastFirst => exact decode_encodeLeastFirst radix seq h
  | mostFirst =>
    have hr : ∀ d ∈ seq.reverse, d < radix := fun d hd => h d (List.mem_reverse.mp hd)
    have := decode_encodeLeastFirst radix seq.reverse hr
    simp only [List.length_reverse] at this
    simp only [decodeSequence, encodeSequence, this, List.reverse_reverse]

theorem encodeSequence_lt (order : DigitOrder) (radix : Nat) (seq : List Nat)
    (h : ∀ d ∈ seq, d < radix) :
    encodeSequence order radix seq < radix ^ seq.length := by
  cases order with
  | leastFirst => exact encodeLeastFirst_lt radix seq h
  | mostFirst =>
    have hr : ∀ d ∈ seq.reverse, d < radix := fun d hd => h d (List.mem_reverse.mp hd)
    have := encodeLeastFirst_lt radix seq.reverse hr
    simpa only [encodeSequence, List.length_reverse] using this

theorem decodeSequence_length (order : DigitOrder) (radix n id : Nat) :
    (decodeSequence order radix n id).length = n := by
  cases order <;> simp [decodeSequence, decodeLeastFirst_length]

theorem decodeSequence_lt (order : DigitOrder) (radix : Nat) (hr : 0 < radix) (n id : Nat) :
    ∀ d ∈ decodeSequence order radix n id, d < radix := by
  intro d hd
  cases order with
  | leastFirst => exact decodeLeastFirst_lt radix hr n id d hd
  | mostFirst =>
    exact decodeLeastFirst_lt radix hr n id d (List.mem_reverse.mp hd)

theorem encode_decodeSequence (order : DigitOrder) (radix n id : Nat) (h : id < radix ^ n) :
    encodeSequence order radix (decodeSequence order radix n id) = id := by
  cases order with
  | leastFirst => exact encode_decodeLeastFirst radix n id h
  | mostFirst =>
    simp only [encodeSequence, decodeSequence, List.reverse_reverse]
    exact encode_decodeLeastFirst radix n id h

theorem replayMovements_length {Pose : Type} (MoveBy : Pose → Nat → Option Pose)
    (seq : List Nat) (pose : Pose) (poses : List Pose)
    (h : replayMovements MoveBy pose seq = some poses) : poses.length = seq.length := by
  induction seq generalizing pose poses with
  | nil =>
    simp only [replayMovements, Option.some.injEq] at h
    subst h
    rfl
  | cons step rest ih =>
    simp only [replayMovements] at h
    cases hm : MoveBy pose step with
    | none => simp [hm] at h
    | some next =>
      simp only [hm] at h
      cases hr : replayMovements MoveBy next rest with
      | none => simp [hr] at h
      | some ps =>
        simp only [hr, Option.some.injEq] at h
        subst h
        simp [ih next ps hr]

/-! ## Codec theorems -/

/-- C1. Measurement round trip: for every length `n`, every maximum value `m`
and every sequence `s` of `n` measurements with values in `[0, m]`, decoding
the encoding of `s` returns a sequence of length `n` that is element-wise
equal to `s`, in either digit order. -/
theorem measurements_round_trip (order : DigitOrder) (n m : Nat) (s : List Nat)
    (hlen : s.length = n) (hs : ∀ z ∈ s, z ≤ m) :
    (DecodeMeasurements order (EncodeMeasurements order s m) m n).length = n ∧
    (∀ i, i < n →
      (DecodeMeasurements order (EncodeMeasurements order s m) m n)[i]? = s[i]?) ∧
    DecodeMeasurements order (EncodeMeasurements order s m) m n = s := by
  have hdig : ∀ z ∈ s, z < m + 1 := fun z hz => Nat.lt_succ_of_le (hs z hz)
  have key : DecodeMeasurements order (EncodeMeasurements order s m) m n = s := by
    subst hlen
    exact decode_encodeSequence order (m + 1) s hdig
  refine ⟨?_, ?_, key⟩
  · rw [key, hlen]
  · intro i _
    rw [key]

/-- Witness of C1 at the test's parameters: maximum 10, five measurements. -/
theorem measurements_round_trip_witness :
    (DecodeMeasurements .mostFirst (EncodeMeasurements .mostFirst [3, 0, 10, 2, 7] 10) 10 5).length
        = 5 ∧
    (∀ i, i < 5 →
      (DecodeMeasurements .mostFirst (EncodeMeasurements .mostFirst [3, 0, 10, 2, 7] 10) 10 5)[i]?
        = [3, 0, 10, 2, 7][i]?) ∧
    DecodeMeasurements .mostFirst (EncodeMeasurements .mostFirst [3, 0, 10, 2, 7] 10) 10 5
        = [3, 0, 10, 2, 7] :=
  measurements_round_trip .mostFirst 5 10 [3, 0, 10, 2, 7] rfl (by decide)

/-- C2. Trajectory round trip: for every start pose and every sequence `seq`
of `num_steps` movements with digits in `[0, b)` each of which keeps the pose
on the grid (the replay of `seq` from `start_pose` succeeds with `poses`),
decoding the encoded trajectory returns exactly those `num_steps` poses, and
the movements it replays are `seq`. -/
theorem trajectory_round_trip {Pose : Type} (MoveBy : Pose → Nat → Option Pose)
    (order : DigitOrder) (b num_steps : Nat) (start_pose : Pose) (seq : List Nat)
    (poses : List Pose) (hlen : seq.length = num_steps) (hdig : ∀ d ∈ seq, d < b)
    (hgrid : replayMovements MoveBy start_pose seq = some poses) :
    DecodeTrajectory MoveBy order b (EncodeTrajectory order b seq) num_steps start_pose
        = some poses ∧
    poses.length = num_steps ∧
    DecodeMovements order b (EncodeTrajectory order b seq) num_steps = seq := by
  have key : DecodeMovements order b (EncodeTrajectory order b seq) num_steps = seq := by
    subst hlen
    exact decode_encodeSequence order b seq hdig
  refine ⟨?_, ?_, key⟩
  · simp only [DecodeTrajectory, key, hgrid]
  · rw [replayMovements_length MoveBy seq start_pose poses hgrid, hlen]

/-- Witness of C2: two movements on a 3 by 3 grid, movement 0 steps along the
rows and movement 1 along the columns. -/
theorem trajectory_round_trip_witness :
    DecodeTrajectory
        (fun (p : Nat × Nat) d =>
          if d = 0 then (if p.1 + 1 < 3 then some (p.1 + 1, p.2) else none)
          else (if p.2 + 1 < 3 then some (p.1, p.2 + 1) else none))
        .leastFirst 2 (EncodeTrajectory .leastFirst 2 [0, 1]) 2 (0, 0)
        = some [(1, 0), (1, 1)] ∧
    [(1, 0), (1, 1)].length = 2 ∧
    DecodeMovements .leastFirst 2 (EncodeTrajectory .leastFirst 2 [0, 1]) 2 = [0, 1] :=
  trajectory_round_trip
    (fun (p : Nat × Nat) d =>
      if d = 0 then (if p.1 + 1 < 3 then some (p.1 + 1, p.2) else none)
      else (if p.2 + 1 < 3 then some (p.1, p.2 + 1) else none))
    .leastFirst 2 2 (0, 0) [0, 1] [(1, 0), (1, 1)] rfl (by decide) rfl

/-- C3. Bijectivity of the trajectory encoding: on the movement sequences of
length `num_steps` with digits in `[0, b)`, `EncodeTrajectory` is a bijection
onto `[0, b ^ num_steps)`: every id is below `b ^ num_steps`, different
sequences get different ids, every id in the range is the code of a
sequence.  (It holds for `b = 0` and `num_steps = 0` as well.) -/
theorem trajectory_encoding_bijective (order : DigitOrder) (b num_steps : Nat) :
    (∀ seq : List Nat, seq.length = num_steps → (∀ d ∈ seq, d < b) →
      EncodeTrajectory order b seq < b ^ num_steps) ∧
    (∀ s1 s2 : List Nat, s1.length = num_steps → (∀ d ∈ s1, d < b) →
      s2.length = num_steps → (∀ d ∈ s2, d < b) →
      EncodeTrajectory order b s1 = EncodeTrajectory order b s2 → s1 = s2) ∧
    (∀ id, id < b ^ num_steps →
      ∃ seq : List Nat, seq.length = num_steps ∧ (∀ d ∈ seq, d < b) ∧
        EncodeTrajectory order b seq = id) ∧
    Set.BijOn (EncodeTrajectory order b)
      {seq | seq.length = num_steps ∧ ∀ d ∈ seq, d < b} (Set.Iio (b ^ num_steps)) := by
  have hlt : ∀ seq : List Nat, seq.length = num_steps → (∀ d ∈ seq, d < b) →
      EncodeTrajectory order b seq < b ^ num_steps := by
    intro seq hl hd
    subst hl
    exact encodeSequence_lt order b seq hd
  have hinj : ∀ s1 s2 : List Nat, s1.length = num_steps → (∀ d ∈ s1, d < b) →
      s2.length = num_steps → (∀ d ∈ s2, d < b) →
      EncodeTrajectory order b s1 = EncodeTrajectory order b s2 → s1 = s2 := by
    intro s1 s2 h1 d1 h2 d2 heq
    have e1 := decode_encodeSequence order b s1 d1
    have e2 := decode_encodeSequence order b s2 d2
    simp only [EncodeTrajectory] at heq
    rw [← e1, ← e2, heq, h1, h2]
  have hsurj : ∀ id, id < b ^ num_steps →
      ∃ seq : List Nat, seq.length = num_steps ∧ (∀ d ∈ seq, d < b) ∧
        EncodeTrajectory order b seq = id := by
    intro id hid
    refine ⟨decodeSequence order b num_steps id, decodeSequence_length order b num_steps id,
      ?_, encode_decodeSequence order b num_steps id hid⟩
    rcases Nat.eq_zero_or_pos b with hb | hb
    · subst hb
      rcases Nat.eq_zero_or_pos num_steps with hn | hn
      · subst hn
        intro d hd
        have hl := decodeSequence_length order 0 0 id
        rw [List.length_eq_zero] at hl
        rw [hl] at hd
        simp at hd
      · rw [zero_pow (Nat.pos_iff_ne_zero.mp hn)] at hid
        omega
    · exact decodeSequence_lt order b hb num_steps id
  refine ⟨hlt, hinj, hsurj, ?_, ?_, ?_⟩
  · intro seq hseq
    exact hlt seq hseq.1 hseq.2
  · intro s1 hs1 s2 hs2 heq
    exact hinj s1 s2 hs1.1 hs1.2 hs2.1 hs2.2 heq
  · intro id hid
    obtain ⟨seq, hl, hd, he⟩ := hsurj id hid
    exact ⟨seq, ⟨hl, hd⟩, he⟩

/-! ## Entropy lemmas -/

theorem foldl_step_bounds {β : Type} (g : β → ℝ → ℝ) (d : ℝ)
    (hg : ∀ x e, e ≤ g x e ∧ g x e ≤ e + d) (l : List β) (init : ℝ) :
    init ≤ l.foldl (fun e x => g x e) init ∧
    l.foldl (fun e x => g x e) init ≤ init + l.length * d := by
  induction l generalizing init with
  | nil => simp
  | cons x rest ih =>
    have h1 := hg x init
    have h2 := ih (g x init)
    simp only [List.foldl_cons, List.length_cons, Nat.cast_add, Nat.cast_one]
    constructor
    · linarith [h2.1]
    · nlinarith [h2.2]

theorem bernoulliEntropy_bounds (p : ℝ) :
    0 ≤ bernoulliEntropy Real.log p ∧ bernoulliEntropy Real.log p ≤ Real.log 2 := by
  unfold bernoulliEntropy
  split_ifs with h
  · have hp0 : 0 < p := lt_trans (by norm_num) h.1
    have hp1 : p < 1 := lt_trans h.2 (by norm_num)
    have e : -p * Real.log p - (1 - p) * Real.log (1 - p) = Real.binEntropy p := by
      simp only [Real.binEntropy, Real.log_inv]
      ring
    rw [e]
    exact ⟨Real.binEntropy_nonneg hp0.le hp1.le, Real.binEntropy_le_log_two⟩
  · exact ⟨le_refl _, Real.log_nonneg (by norm_num)⟩

theorem columnEntropy_step_nonneg (h p : ℝ) (hh : 0 ≤ h) :
    0 ≤ (if p < 0.01 ∨ p > 1 - 0.01 then h else h - p * Real.log p) := by
  split_ifs with hc
  · exact hh
  · push_neg at hc
    have hp0 : 0 < p := lt_of_lt_of_le (by norm_num) hc.1
    have hp1 : p ≤ 1 := le_trans hc.2 (by norm_num)
    have : p * Real.log p ≤ 0 :=
      mul_nonpos_of_nonneg_of_nonpos hp0.le (Real.log_nonpos hp0.le hp1)
    linarith

theorem columnEntropy_foldl_nonneg (col : List ℝ) (init : ℝ) (hinit : 0 ≤ init) :
    0 ≤ col.foldl
      (fun h p => if p < 0.01 ∨ p > 1 - 0.01 then h else h - p * Real.log p) init := by
  induction col generalizing init with
  | nil => simpa using hinit
  | cons p rest ih =>
    simp only [List.foldl_cons]
    exact ih _ (columnEntropy_step_nonneg init p hinit)

theorem columnEntropy_nonneg (col : List ℝ) : 0 ≤ columnEntropy Real.log col :=
  columnEntropy_foldl_nonneg col 0 (le_refl 0)

theorem entropyLoop_eq (cols : List (List ℝ)) :
    entropyLoop Real.log cols = some (cols.map (columnEntropy Real.log)) := by
  induction cols with
  | nil => rfl
  | cons col rest ih =>
    simp only [entropyLoop, ih, List.map_cons]
    rw [if_pos (columnEntropy_nonneg col)]

theorem entropyVectorOfSamples_eq (zx_samples : List (Nat × List ℝ)) :
    entropyVectorOfSamples Real.log zx_samples
      = some (zx_samples.map (fun kv => columnEntropy Real.log (normalizeColumn kv.2)),
          zx_samples.map Prod.fst) := by
  simp only [entropyVectorOfSamples, entropyLoop_eq, List.map_map]
  rfl

/-! ## Entropy theorems -/

/-- C5. Bounds of the map entropy: for every belief matrix of real values,
whatever they are, `Entropy()` is at least 0 and at most
`num_rows * num_cols * log 2`. -/
theorem entropy_bounds (m : GridMap2D ℝ) :
    0 ≤ m.Entropy Real.log ∧
    m.Entropy Real.log ≤ (m.num_rows : ℝ) * (m.num_cols : ℝ) * Real.log 2 := by
  have inner : ∀ (ii : Nat) (e : ℝ),
      e ≤ (List.range m.num_cols).foldl
          (fun entropy jj => entropy + bernoulliEntropy Real.log (m.belief ii jj)) e ∧
      (List.range m.num_cols).foldl
          (fun entropy jj => entropy + bernoulliEntropy Real.log (m.belief ii jj)) e
        ≤ e + (m.num_cols : ℝ) * Real.log 2 := by
    intro ii e
    have := foldl_step_bounds (fun jj entropy => entropy + bernoulliEntropy Real.log (m.belief ii jj))
      (Real.log 2)
      (fun jj e0 => by
        have hb := bernoulliEntropy_bounds (m.belief ii jj)
        constructor
        · show e0 ≤ e0 + bernoulliEntropy Real.log (m.belief ii jj)
          linarith [hb.1]
        · show e0 + bernoulliEntropy Real.log (m.belief ii jj) ≤ e0 + Real.log 2
          linarith [hb.2])
      (List.range m.num_cols) e
    simpa only [List.length_range] using this
  have outer := foldl_step_bounds
    (fun ii entropy => (List.range m.num_cols).foldl
      (fun entropy jj => entropy + bernoulliEntropy Real.log (m.belief ii jj)) entropy)
    ((m.num_cols : ℝ) * Real.log 2) inner (List.range m.num_rows) 0
  simp only [List.length_range, zero_add] at outer
  unfold GridMap2D.Entropy
  refine ⟨outer.1, ?_⟩
  calc _ ≤ (m.num_rows : ℝ) * ((m.num_cols : ℝ) * Real.log 2) := outer.2
    _ = (m.num_rows : ℝ) * (m.num_cols : ℝ) * Real.log 2 := by ring

/-- C6. Non-negativity of the conditional entropy vector: for every content of
the per-trajectory histograms, the part of `GenerateEntropyVector` after the
sampling passes its `CHECK(hzx(jj) >= 0.0)` and returns one entry per
trajectory, the entropy of the normalised column, each entry being `>= 0`. -/
theorem entropy_vector_nonneg (zx_samples : List (Nat × List ℝ)) :
    ∃ hzx : List ℝ,
      entropyVectorOfSamples Real.log zx_samples = some (hzx, zx_samples.map Prod.fst) ∧
      hzx = zx_samples.map (fun kv => columnEntropy Real.log (normalizeColumn kv.2)) ∧
      hzx.length = zx_samples.length ∧
      ∀ h ∈ hzx, 0 ≤ h := by
  refine ⟨zx_samples.map (fun kv => columnEntropy Real.log (normalizeColumn kv.2)),
    entropyVectorOfSamples_eq zx_samples, rfl, by simp, ?_⟩
  · intro h hh
    simp only [List.mem_map] at hh
    obtain ⟨kv, _, rfl⟩ := hh
    exact columnEntropy_nonneg _

/-! ## Planner lemmas -/

/-- Invariant of the arg-max loop after its first `k` iterations: either no
entry so far exceeded the initial `-1`, or the current value is the entry of
the first index at which the entries seen so far attain their maximum. -/
theorem argMaxLoop_upto (hzx : List ℝ) (trajectory_ids : List Nat) (k : Nat) :
    let r := (List.range k).foldl
      (fun (acc : ℝ × Nat) ii =>
        if hzx.getD ii 0 > acc.1 then (hzx.getD ii 0, trajectory_ids.getD ii 0) else acc)
      (-1, 0)
    (r = (-1, 0) ∧ ∀ j, j < k → hzx.getD j 0 ≤ -1) ∨
    (∃ i, i < k ∧ r = (hzx.getD i 0, trajectory_ids.getD i 0) ∧ -1 < hzx.getD i 0 ∧
      (∀ j, j < i → hzx.getD j 0 < hzx.getD i 0) ∧
      (∀ j, j < k → hzx.getD j 0 ≤ hzx.getD i 0)) := by
  induction k with
  | zero =>
    left
    exact ⟨rfl, fun j hj => absurd hj (Nat.not_lt_zero j)⟩
  | succ k ih =>
    simp only [List.range_succ, List.foldl_append, List.foldl_cons, List.foldl_nil]
    rcases ih with ⟨hr, hall⟩ | ⟨i, hik, hr, hgt, hbefore, hall⟩
    · rw [hr]
      by_cases hk : hzx.getD k 0 > -1
      · right
        refine ⟨k, Nat.lt_succ_self k, by simp only [if_pos hk], hk, ?_, ?_⟩
        · intro j hj
          exact lt_of_le_of_lt (hall j hj) hk
        · intro j hj
          rcases Nat.lt_succ_iff_lt_or_eq.mp hj with h | h
          · exact le_of_lt (lt_of_le_of_lt (hall j h) hk)
          · rw [h]
      · left
        refine ⟨by simp only [if_neg hk], ?_⟩
        intro j hj
        rcases Nat.lt_succ_iff_lt_or_eq.mp hj with h | h
        · exact hall j h
        · rw [h]
          exact not_lt.mp hk
    · rw [hr]
      right
      by_cases hk : hzx.getD k 0 > hzx.getD i 0
      · refine ⟨k, Nat.lt_succ_self k, by simp only [if_pos hk], lt_trans hgt hk, ?_, ?_⟩
        · intro j hj
          exact lt_of_le_of_lt (hall j hj) hk
        · intro j hj
          rcases Nat.lt_succ_iff_lt_or_eq.mp hj with h | h
          · exact le_of_lt (lt_of_le_of_lt (hall j h) hk)
          · rw [h]
      · refine ⟨i, Nat.lt_succ_of_lt hik, by simp only [if_neg hk], hgt, hbefore, ?_⟩
        intro j hj
        rcases Nat.lt_succ_iff_lt_or_eq.mp hj with h | h
        · exact hall j h
        · rw [h]
          exact not_lt.mp hk

/-- What the arg-max loop of `PlanAhead` leaves in `(max_value, trajectory_id)`. -/
theorem argMaxLoop_spec (hzx : List ℝ) (trajectory_ids : List Nat) :
    (argMaxLoop hzx trajectory_ids = (-1, 0) ∧ ∀ x ∈ hzx, x ≤ -1) ∨
    (∃ i, ∃ hi : i < hzx.length,
      argMaxLoop hzx trajectory_ids = (hzx[i], trajectory_ids.getD i 0) ∧ -1 < hzx[i] ∧
      (∀ j, ∀ hj : j < i, hzx[j] < hzx[i]) ∧
      (∀ j, ∀ hj : j < hzx.length, hzx[j] ≤ hzx[i])) := by
  rcases argMaxLoop_upto hzx trajectory_ids hzx.length with
    ⟨hr, hall⟩ | ⟨i, hik, hr, hgt, hbefore, hall⟩
  · left
    refine ⟨hr, ?_⟩
    intro x hx
    obtain ⟨j, hj, rfl⟩ := List.getElem_of_mem hx
    have := hall j hj
    rwa [List.getD_eq_getElem _ _ hj] at this
  · right
    have ei : hzx.getD i 0 = hzx[i] := List.getD_eq_getElem _ _ hik
    refine ⟨i, hik, ?_, ?_, ?_, ?_⟩
    · rw [← ei]
      exact hr
    · rw [← ei]
      exact hgt
    · intro j hj
      have := hbefore j hj
      rwa [List.getD_eq_getElem _ _ (lt_trans hj hik), ei] at this
    · intro j hj
      have := hall j hj
      rwa [List.getD_eq_getElem _ _ hj, ei] at this

/-! ## Planner theorems -/

/-- C8. Arg-max selection in `PlanAhead`: for every entropy vector `hzx` and
list `trajectory_ids` of the same length, `PlanAhead` succeeds exactly when
some entry of `hzx` is `>= 0`; on success it decodes `trajectory_ids[i]` for
the first index `i` at which `hzx` attains its maximum; when `hzx` is empty
or all its entries are negative it returns failure. -/
theorem planAhead_argmax {Pose : Type} (decode : Nat → List Pose) (hzx : List ℝ)
    (trajectory_ids : List Nat) (hlen : hzx.length = trajectory_ids.length) :
    ((∃ trajectory, PlanAhead decode hzx trajectory_ids = .success trajectory) ↔
      ∃ x ∈ hzx, 0 ≤ x) ∧
    ((∃ x ∈ hzx, 0 ≤ x) →
      ∃ i, ∃ hi : i < hzx.length,
        (∀ j, ∀ hj : j < hzx.length, hzx[j] ≤ hzx[i]) ∧
        (∀ j, ∀ hj : j < i, hzx[j] < hzx[i]) ∧
        PlanAhead decode hzx trajectory_ids
          = .success (decode (trajectory_ids.get ⟨i, hlen ▸ hi⟩))) ∧
    ((∀ x ∈ hzx, x < 0) → PlanAhead decode hzx trajectory_ids = .failure) := by
  have hsucc : (∃ x ∈ hzx, 0 ≤ x) →
      ∃ i, ∃ hi : i < hzx.length,
        (∀ j, ∀ hj : j < hzx.length, hzx[j] ≤ hzx[i]) ∧
        (∀ j, ∀ hj : j < i, hzx[j] < hzx[i]) ∧
        PlanAhead decode hzx trajectory_ids
          = .success (decode (trajectory_ids.get ⟨i, hlen ▸ hi⟩)) := by
    rintro ⟨x, hx, hx0⟩
    rcases argMaxLoop_spec hzx trajectory_ids with ⟨_, hall⟩ | ⟨i, hi, hr, _, hbefore, hall⟩
    · have := hall x hx
      linarith
    · refine ⟨i, hi, hall, hbefore, ?_⟩
      obtain ⟨j, hj, rfl⟩ := List.getElem_of_mem hx
      have hmax : ¬ hzx[i] < 0 := not_lt.mpr (le_trans hx0 (hall j hj))
      have hid : trajectory_ids.getD i 0 = trajectory_ids.get ⟨i, hlen ▸ hi⟩ := by
        rw [List.get_eq_getElem]
        exact List.getD_eq_getElem _ _ (hlen ▸ hi)
      simp only [PlanAhead, if_pos hlen, hr, if_neg hmax, hid]
  have hfail : (∀ x ∈ hzx, x < 0) → PlanAhead decode hzx trajectory_ids = .failure := by
    intro hneg
    rcases argMaxLoop_spec hzx trajectory_ids with ⟨hr, _⟩ | ⟨i, hi, hr, _, _, _⟩
    · simp only [PlanAhead, if_pos hlen, hr]
      norm_num
    · have hmax : hzx[i] < 0 := hneg _ (List.getElem_mem _)
      simp only [PlanAhead, if_pos hlen, hr, if_pos hmax]
  refine ⟨⟨?_, ?_⟩, hsucc, hfail⟩
  · rintro ⟨trajectory, ht⟩
    by_contra hno
    push_neg at hno
    rw [hfail hno] at ht
    cases ht
  · intro h
    obtain ⟨i, hi, _, _, hp⟩ := hsucc h
    exact ⟨_, hp⟩

/-- Witness of C8: the maximum 3 is attained first at index 1, whose
trajectory id is 8. -/
theorem planAhead_argmax_witness :
    ([1, 3, 3, 2] : List ℝ).length = [7, 8, 9, 10].length ∧
    ((∃ trajectory, PlanAhead (fun id => [id]) ([1, 3, 3, 2] : List ℝ) [7, 8, 9, 10]
        = .success trajectory) ↔ ∃ x ∈ ([1, 3, 3, 2] : List ℝ), 0 ≤ x) :=
  ⟨rfl, (planAhead_argmax (fun id => [id]) [1, 3, 3, 2] [7, 8, 9, 10] rfl).1⟩

/-- C9, as stated, fails: one sample of a trajectory (id 0, one step, one
source, measurement 0) gives the histogram `[1, 0]` and the entropy vector
`[0]`, in which no entry is strictly positive, and `PlanAhead` returns
success with trajectory id 0. -/
theorem planAhead_zero_entropy_succeeds :
    entropyVectorOfSamples Real.log [(0, [1, 0])] = some ([0], [0]) ∧
    (∀ x ∈ ([0] : List ℝ), ¬ 0 < x) ∧
    PlanAhead (fun id => [id]) ([0] : List ℝ) [0] = PlanResult.success [0] := by
  refine ⟨?_, ?_, ?_⟩
  · norm_num [entropyVectorOfSamples, entropyLoop, columnEntropy, normalizeColumn]
  · intro x hx
    simp only [List.mem_singleton] at hx
    rw [hx]
    exact lt_irrefl 0
  · norm_num [PlanAhead, argMaxLoop, List.range_succ]

/-- C9, amended. For every entropy vector returned by `GenerateEntropyVector`,
`PlanAhead` returns failure exactly when the vector is empty (no trajectory
was sampled); when no entry is strictly positive and the vector is not
empty, every entry is exactly 0 and `PlanAhead` returns success with the
first trajectory id decoded. -/
theorem planAhead_failure_iff_no_trajectory {Pose : Type} (decode : Nat → List Pose)
    (zx_samples : List (Nat × List ℝ)) (hzx : List ℝ) (trajectory_ids : List Nat)
    (h : entropyVectorOfSamples Real.log zx_samples = some (hzx, trajectory_ids)) :
    (PlanAhead decode hzx trajectory_ids = .failure ↔ hzx = []) ∧
    (hzx = [] ↔ zx_samples = []) ∧
    (hzx ≠ [] → (∀ x ∈ hzx, ¬ 0 < x) →
      (∀ x ∈ hzx, x = 0) ∧
      PlanAhead decode hzx trajectory_ids = .success (decode (trajectory_ids.getD 0 0))) := by
  have he := entropyVectorOfSamples_eq zx_samples
  rw [h, Option.some.injEq, Prod.mk.injEq] at he
  obtain ⟨rfl, rfl⟩ := he
  have hl : (zx_samples.map
      (fun kv => columnEntropy Real.log (normalizeColumn kv.2))).length = zx_samples.length :=
    List.length_map _ _
  have hnn : ∀ x ∈ zx_samples.map
      (fun kv => columnEntropy Real.log (normalizeColumn kv.2)), 0 ≤ x := by
    intro x hx
    simp only [List.mem_map] at hx
    obtain ⟨kv, _, rfl⟩ := hx
    exact columnEntropy_nonneg _
  generalize zx_samples.map
    (fun kv => columnEntropy Real.log (normalizeColumn kv.2)) = hzx at hl hnn ⊢
  have hlen : hzx.length = (zx_samples.map Prod.fst).length := by
    rw [hl, List.length_map]
  have hne_succ : hzx ≠ [] → ∃ i, ∃ hi : i < hzx.length,
      argMaxLoop hzx (zx_samples.map Prod.fst)
        = (hzx[i], (zx_samples.map Prod.fst).getD i 0) ∧ 0 ≤ hzx[i] ∧
      (∀ j, ∀ hj : j < i, hzx[j] < hzx[i]) := by
    intro hne
    obtain ⟨x, hx⟩ := List.exists_mem_of_ne_nil hzx hne
    rcases argMaxLoop_spec hzx (zx_samples.map Prod.fst) with
      ⟨_, hall⟩ | ⟨i, hi, hr, _, hbefore, _⟩
    · have h1 := hall x hx
      have h2 := hnn x hx
      linarith
    · exact ⟨i, hi, hr, hnn _ (List.getElem_mem _), hbefore⟩
  refine ⟨⟨?_, ?_⟩, ?_, ?_⟩
  · intro hf
    by_contra hne
    obtain ⟨i, hi, hr, h0, _⟩ := hne_succ hne
    simp only [PlanAhead, if_pos hlen, hr, if_neg (not_lt.mpr h0)] at hf
    cases hf
  · intro he
    subst he
    simp only [PlanAhead, if_pos hlen]
    norm_num [argMaxLoop]
  · rw [← List.length_eq_zero, hl, List.length_eq_zero]
  · intro hne hnp
    have hz : ∀ x ∈ hzx, x = 0 := fun x hx =>
      le_antisymm (not_lt.mp (hnp x hx)) (hnn x hx)
    refine ⟨hz, ?_⟩
    obtain ⟨i, hi, hr, h0, hbefore⟩ := hne_succ hne
    have hi0 : i = 0 := by
      by_contra hpos
      have hlt := hbefore 0 (Nat.pos_of_ne_zero hpos)
      rw [hz _ (List.getElem_mem _), hz _ (List.getElem_mem _)] at hlt
      exact lt_irrefl 0 hlt
    subst hi0
    simp only [PlanAhead, if_pos hlen, hr, if_neg (not_lt.mpr h0)]

/-- Witness of the amended C9 at the samples of the counterexample. -/
theorem planAhead_failure_iff_no_trajectory_witness :
    entropyVectorOfSamples Real.log [(0, [1, 0])] = some ([0], [0]) ∧
    (PlanAhead (fun id => [id]) ([0] : List ℝ) [0] = .failure ↔ ([0] : List ℝ) = []) :=
  ⟨by norm_num [entropyVectorOfSamples, entropyLoop, columnEntropy, normalizeColumn],
   (planAhead_failure_iff_no_trajectory (fun id => [id]) [(0, [1, 0])] [0] [0]
      (by norm_num [entropyVectorOfSamples, entropyLoop, columnEntropy, normalizeColumn])).1⟩

/-! ## Source sampling lemmas -/

theorem forLoop_append {ι ρ σ : Type} (body : ι → σ → LoopStep ρ σ) (l1 l2 : List ι) (s : σ) :
    forLoop body (l1 ++ l2) s =
      match forLoop body l1 s with
      | .ret r => .ret r
      | .next s1 => forLoop body l2 s1 := by
  induction l1 generalizing s with
  | nil => rfl
  | cons i rest ih =>
    simp only [List.cons_append, forLoop]
    cases body i s with
    | ret r => rfl
    | next s1 => exact ih s1

theorem forLoop_map {ι κ ρ σ : Type} (body : κ → σ → LoopStep ρ σ) (f : ι → κ) (l : List ι)
    (s : σ) : forLoop body (l.map f) s = forLoop (fun i s1 => body (f i) s1) l s := by
  induction l generalizing s with
  | nil => rfl
  | cons i rest ih =>
    simp only [List.map_cons, forLoop]
    cases body (f i) s with
    | ret r => rfl
    | next s1 => exact ih s1

/-- Two nested `for` loops are one loop over the pairs of indices in
row-major order. -/
theorem forLoop_nested {ρ σ : Type} (body : Nat → Nat → σ → LoopStep ρ σ) (rows cols : List Nat)
    (s : σ) :
    forLoop (fun ii s1 => forLoop (fun jj s2 => body ii jj s2) cols s1) rows s =
      forLoop (fun (c : Nat × Nat) s1 => body c.1 c.2 s1)
        (rows.flatMap fun ii => cols.map fun jj => (ii, jj)) s := by
  induction rows generalizing s with
  | nil => rfl
  | cons ii rest ih =>
    simp only [List.flatMap_cons, forLoop, forLoop_append, forLoop_map]
    cases forLoop (fun jj s2 => body ii jj s2) cols s with
    | ret r => rfl
    | next s1 => exact ih s1

/-- The `while` loop at a cell: it emits the cell for the pending draws up to
some index `k1`; it returns when that exhausts the draws, and otherwise stops
at the first draw above the running CDF. -/
theorem whileLoop_spec {α : Type} [LinearOrderedField α] (E : List α) (n ii jj : Nat)
    (hEn : E.length = n) (s : WalkState α) (hk : s.current_index < n)
    (hsrc : s.sources.length = s.current_index) :
    ∃ k1, s.current_index ≤ k1 ∧ k1 ≤ n ∧
      (∀ i e, s.current_index ≤ i → i < k1 → E[i]? = some e → e ≤ s.current_cdf) ∧
      ((k1 = n ∧ whileLoop E n ii jj s = some (.ret
          (s.sources ++ List.replicate (k1 - s.current_index) (Source2D.mk ii jj)))) ∨
       (k1 < n ∧ (∀ e, E[k1]? = some e → s.current_cdf < e) ∧
        whileLoop E n ii jj s = some (.next
          { sources := s.sources ++ List.replicate (k1 - s.current_index) (Source2D.mk ii jj),
            current_index := k1, current_cdf := s.current_cdf }))) := by
  obtain ⟨d, hd⟩ : ∃ d, n - s.current_index = d := ⟨_, rfl⟩
  induction d generalizing s with
  | zero => omega
  | succ d ih =>
    obtain ⟨sources, k, cdf⟩ := s
    simp only at hk hsrc hd ⊢
    have hkE : k < E.length := by omega
    rw [whileLoop]
    simp only [dif_pos hkE]
    by_cases hge : cdf ≥ E[k]
    · simp only [if_pos hge, List.length_append, List.length_singleton]
      by_cases hlast : sources.length + 1 = n
      · refine ⟨n, by omega, le_refl n, ?_, Or.inl ⟨rfl, ?_⟩⟩
        · intro i e hi1 hi2 hie
          have hik : i = k := by omega
          subst hik
          rw [List.getElem?_eq_getElem hkE, Option.some.injEq] at hie
          rw [← hie]
          exact hge
        · have h1 : n - k = 1 := by omega
          simp only [if_pos hlast, h1, List.replicate_one]
      · simp only [if_neg hlast]
        have hk1 : k + 1 < n := by omega
        obtain ⟨k1, h1, h2, h3, h4⟩ := ih
          { sources := sources ++ [Source2D.mk ii jj], current_index := k + 1,
            current_cdf := cdf }
          hk1 (by simp [hsrc]) (by simp only; omega)
        simp only at h1 h3 h4
        have hrep : sources ++ [Source2D.mk ii jj] ++
            List.replicate (k1 - (k + 1)) (Source2D.mk ii jj)
            = sources ++ List.replicate (k1 - k) (Source2D.mk ii jj) := by
          have : k1 - k = (k1 - (k + 1)) + 1 := by omega
          rw [this, List.replicate_succ, List.append_assoc, List.singleton_append]
        rw [hrep] at h4
        refine ⟨k1, by omega, h2, ?_, h4⟩
        intro i e hi1 hi2 hie
        rcases Nat.eq_or_lt_of_le hi1 with hik | hik
        · subst hik
          rw [List.getElem?_eq_getElem hkE, Option.some.injEq] at hie
          rw [← hie]
          exact hge
        · exact h3 i e hik hi2 hie
    · simp only [if_neg hge]
      refine ⟨k, le_refl k, le_of_lt hk, ?_, Or.inr ⟨hk, ?_, ?_⟩⟩
      · intro i e hi1 hi2 _
        omega
      · intro e hie
        rw [List.getElem?_eq_getElem hkE, Option.some.injEq] at hie
        rw [← hie]
        exact not_le.mp hge
      · simp

theorem sorted_getElem?_le {α : Type} [LinearOrderedField α] (E : List α)
    (hE : E.Sorted (· ≤ ·)) (i j : Nat) (a b : α) (hij : i ≤ j)
    (ha : E[i]? = some a) (hb : E[j]? = some b) : a ≤ b := by
  obtain ⟨hi, rfl⟩ := List.getElem?_eq_some.mp ha
  obtain ⟨hj, rfl⟩ := List.getElem?_eq_some.mp hb
  have := hE.rel_get_of_le (a := ⟨i, hi⟩) (b := ⟨j, hj⟩) hij
  simpa only [List.get_eq_getElem] using this

theorem PlacedAt_append {α : Type} [LinearOrderedField α] (belief : Nat → Nat → α) (total : α)
    (cells : List (Nat × Nat)) (sources extra : List Source2D) (i : Nat) (e : α)
    (h : PlacedAt belief total cells sources i e) :
    PlacedAt belief total cells (sources ++ extra) i e := by
  obtain ⟨t, c, hc, hs, h1, h2⟩ := h
  refine ⟨t, c, hc, ?_, h1, h2⟩
  have hi : i < sources.length := (List.getElem?_eq_some.mp hs).1
  rw [List.getElem?_append_left hi]
  exact hs

theorem cumulativeBelief_at_split {α : Type} [LinearOrderedField α] (belief : Nat → Nat → α)
    (total : α) (pre rest : List (Nat × Nat)) (c : Nat × Nat) :
    cumulativeBelief belief total (pre ++ c :: rest) pre.length
      = (pre.map fun c => belief c.1 c.2 / total).sum + belief c.1 c.2 / total := by
  have : (pre ++ c :: rest).take (pre.length + 1) = pre ++ [c] := by
    have h1 : pre ++ c :: rest = (pre ++ [c]) ++ rest := by simp
    rw [h1]
    exact List.take_left' (by simp)
  simp [cumulativeBelief, this]

/-- Invariant of the walk over the cells: with the cells of `pre` behind it
and the sources of the draws below `current_index` placed, the walk over the
remaining cells returns with every draw placed. -/
theorem walk_spec {α : Type} [LinearOrderedField α] (belief : Nat → Nat → α) (total : α)
    (E : List α) (n : Nat) (cells : List (Nat × Nat)) (hE : E.Sorted (· ≤ ·))
    (hEn : E.length = n) (hne : cells ≠ [])
    (hend : ∀ e ∈ E, e ≤ (cells.map fun c => belief c.1 c.2 / total).sum)
    (suf pre : List (Nat × Nat)) (hcells : cells = pre ++ suf) (s : WalkState α)
    (hk : s.current_index < n) (hsrc : s.sources.length = s.current_index)
    (hcdf : s.current_cdf = (pre.map fun c => belief c.1 c.2 / total).sum)
    (hprev : ∀ t e, t < pre.length → E[s.current_index]? = some e →
      cumulativeBelief belief total cells t < e)
    (hdone : ∀ i e, i < s.current_index → E[i]? = some e →
      PlacedAt belief total cells s.sources i e) :
    ∃ sources,
      forLoop (fun (c : Nat × Nat) s1 => cellStep belief total E n c.1 c.2 s1) suf s
        = .ret (some sources) ∧
      sources.length = n ∧
      ∀ i e, E[i]? = some e → PlacedAt belief total cells sources i e := by
  induction suf generalizing pre s with
  | nil =>
    exfalso
    rw [List.append_nil] at hcells
    subst hcells
    have hkE : s.current_index < E.length := by omega
    have hlen : 0 < cells.length := List.length_pos.mpr hne
    have h1 := hprev (cells.length - 1) E[s.current_index] (by omega)
      (List.getElem?_eq_getElem hkE)
    have h2 := hend E[s.current_index] (List.getElem_mem _)
    have h3 : cumulativeBelief belief total cells (cells.length - 1)
        = (cells.map fun c => belief c.1 c.2 / total).sum := by
      have : cells.length - 1 + 1 = cells.length := by omega
      simp only [cumulativeBelief, this, List.take_length]
    rw [h3] at h1
    exact absurd h2 (not_le.mpr h1)
  | cons c rest ih =>
    obtain ⟨sources, k, cdf⟩ := s
    simp only at hk hsrc hcdf hprev hdone
    have hkE : k < E.length := by omega
    have hcum : cumulativeBelief belief total cells pre.length
        = cdf + belief c.1 c.2 / total := by
      rw [hcells, cumulativeBelief_at_split, hcdf]
    have hcell : cells[pre.length]? = some c := by
      rw [hcells, List.getElem?_append_right (le_refl _)]
      simp
    obtain ⟨k1, hk1, hk1n, hle, hres⟩ := whileLoop_spec E n c.1 c.2 hEn
      { sources := sources, current_index := k, current_cdf := cdf + belief c.1 c.2 / total }
      hk hsrc
    simp only at hk1 hle hres
    -- the sources emitted at this cell are placed as claimed
    have hnew : ∀ i e, k ≤ i → i < k1 → E[i]? = some e →
        PlacedAt belief total cells
          (sources ++ List.replicate (k1 - k) (Source2D.mk c.1 c.2)) i e := by
      intro i e hi1 hi2 hie
      refine ⟨pre.length, c, hcell, ?_, ?_, ?_⟩
      · rw [List.getElem?_append_right (by omega), hsrc]
        exact List.getElem?_replicate_of_lt (by omega)
      · rw [hcum]
        exact hle i e hi1 hi2 hie
      · intro t1 ht1
        have h1 := hprev t1 E[k] ht1 (List.getElem?_eq_getElem hkE)
        have h2 := sorted_getElem?_le E hE k i E[k] e hi1 (List.getElem?_eq_getElem hkE) hie
        exact lt_of_lt_of_le h1 h2
    have hall : ∀ i e, i < k1 → E[i]? = some e →
        PlacedAt belief total cells
          (sources ++ List.replicate (k1 - k) (Source2D.mk c.1 c.2)) i e := by
      intro i e hi hie
      by_cases hik : i < k
      · exact PlacedAt_append belief total cells sources _ i e (hdone i e hik hie)
      · exact hnew i e (not_lt.mp hik) hi hie
    rcases hres with ⟨hk1eq, hw⟩ | ⟨hk1lt, hgt, hw⟩
    · refine ⟨sources ++ List.replicate (k1 - k) (Source2D.mk c.1 c.2), ?_, ?_, ?_⟩
      · simp only [forLoop, cellStep, hw]
      · simp only [List.length_append, List.length_replicate, hsrc]
        omega
      · intro i e hie
        have hi : i < E.length := (List.getElem?_eq_some.mp hie).1
        exact hall i e (by omega) hie
    · have hstep : forLoop (fun (c : Nat × Nat) s1 => cellStep belief total E n c.1 c.2 s1)
          (c :: rest) { sources := sources, current_index := k, current_cdf := cdf }
          = forLoop (fun (c : Nat × Nat) s1 => cellStep belief total E n c.1 c.2 s1) rest
            { sources := sources ++ List.replicate (k1 - k) (Source2D.mk c.1 c.2),
              current_index := k1, current_cdf := cdf + belief c.1 c.2 / total } := by
        simp only [forLoop, cellStep, hw]
      rw [hstep]
      apply ih (pre ++ [c]) (by rw [hcells]; simp)
      · exact hk1lt
      · simp only [List.length_append, List.length_replicate, hsrc]
        omega
      · simp [hcdf]
      · intro t e ht hie
        simp only [List.length_append, List.length_singleton] at ht
        simp only at hie
        rcases Nat.lt_succ_iff_lt_or_eq.mp ht with h | h
        · have h1 := hprev t E[k] h (List.getElem?_eq_getElem hkE)
          have h2 := sorted_getElem?_le E hE k k1 E[k] e hk1
            (List.getElem?_eq_getElem hkE) hie
          exact lt_of_lt_of_le h1 h2
        · rw [h, hcum]
          exact hgt e hie
      · exact hall

theorem sum_map_div {α ι : Type} [LinearOrderedField α] (l : List ι) (b : ι → α) (total : α) :
    (l.map fun c => b c / total).sum = (l.map b).sum / total := by
  induction l with
  | nil => simp
  | cons c rest ih => simp only [List.map_cons, List.sum_cons, ih, add_div]

theorem sum_flatMap_map {α : Type} [LinearOrderedField α] (rows cols : List Nat)
    (f : Nat × Nat → α) :
    ((rows.flatMap fun ii => cols.map fun jj => (ii, jj)).map f).sum
      = (rows.map fun ii => (cols.map fun jj => f (ii, jj)).sum).sum := by
  induction rows with
  | nil => simp
  | cons ii rest ih =>
    simp only [List.flatMap_cons, List.map_append, List.sum_append, ih, List.map_cons,
      List.sum_cons, List.map_map]
    rfl

theorem sum_gridCells {α : Type} [LinearOrderedField α] (num_rows num_cols : Nat)
    (belief : Nat → Nat → α) :
    ((gridCells num_rows num_cols).map fun c => belief c.1 c.2).sum
      = matrixSum num_rows num_cols belief := by
  unfold gridCells matrixSum
  exact sum_flatMap_map (List.range num_rows) (List.range num_cols) fun c => belief c.1 c.2

theorem mem_sortedDraws {α : Type} [LinearOrderedField α] (num_sources : Nat) (unif : Nat → α)
    (e : α) (he : e ∈ sortedDraws num_sources unif) : ∃ k, k < num_sources ∧ unif k = e := by
  have h1 : e ∈ (List.range num_sources).map unif :=
    (List.perm_insertionSort (· ≤ ·) _).mem_iff.mp he
  obtain ⟨k, hk, rfl⟩ := List.mem_map.mp h1
  exact ⟨k, List.mem_range.mp hk, rfl⟩

theorem length_sortedDraws {α : Type} [LinearOrderedField α] (num_sources : Nat)
    (unif : Nat → α) : (sortedDraws num_sources unif).length = num_sources := by
  simp [sortedDraws, List.length_insertionSort]

/-- `GenerateSources` in exact arithmetic: when the total belief is not zero,
at least one source is asked for and no draw exceeds 1, the walk returns
`true` with one source per draw, the source of the `i`-th smallest draw at
the first cell whose cumulative normalised belief reaches it. -/
theorem generateSources_spec {α : Type} [LinearOrderedField α] (m : GridMap2D α)
    (unif : Nat → α) (htotal : matrixSum m.num_rows m.num_cols m.belief ≠ 0)
    (hn : 1 ≤ m.num_sources) (hdraws : ∀ k, k < m.num_sources → unif k ≤ 1) :
    ∃ sources, m.GenerateSources unif = some (true, sources) ∧
      sources.length = m.num_sources ∧
      ∀ i e, (sortedDraws m.num_sources unif)[i]? = some e →
        PlacedAt m.belief (matrixSum m.num_rows m.num_cols m.belief)
          (gridCells m.num_rows m.num_cols) sources i e := by
  have hsum : ((gridCells m.num_rows m.num_cols).map fun c =>
      m.belief c.1 c.2 / matrixSum m.num_rows m.num_cols m.belief).sum = 1 := by
    rw [sum_map_div (gridCells m.num_rows m.num_cols) (fun c => m.belief c.1 c.2),
      sum_gridCells, div_self htotal]
  have hne : gridCells m.num_rows m.num_cols ≠ [] := by
    intro h
    rw [h] at hsum
    simp at hsum
  obtain ⟨sources, hw, hl, hp⟩ := walk_spec m.belief (matrixSum m.num_rows m.num_cols m.belief)
    (sortedDraws m.num_sources unif) m.num_sources (gridCells m.num_rows m.num_cols)
    (List.sorted_insertionSort (· ≤ ·) _) (length_sortedDraws _ _) hne
    (by
      intro e he
      obtain ⟨k, hk, rfl⟩ := mem_sortedDraws _ _ e he
      rw [hsum]
      exact hdraws k hk)
    (gridCells m.num_rows m.num_cols) [] rfl
    { sources := [], current_index := 0, current_cdf := 0 }
    hn rfl (by simp)
    (fun t e ht _ => absurd ht (Nat.not_lt_zero t))
    (fun i e hi _ => absurd hi (Nat.not_lt_zero i))
  refine ⟨sources, ?_, hl, hp⟩
  have hflat : walkGrid m.belief (matrixSum m.num_rows m.num_cols m.belief)
      (sortedDraws m.num_sources unif) m.num_sources m.num_rows m.num_cols
      { sources := [], current_index := 0, current_cdf := 0 } = .ret (some sources) := by
    unfold walkGrid
    rw [forLoop_nested (fun ii jj s2 => cellStep m.belief
      (matrixSum m.num_rows m.num_cols m.belief) (sortedDraws m.num_sources unif)
      m.num_sources ii jj s2)]
    exact hw
  unfold GridMap2D.GenerateSources
  simp only [hflat]

theorem mem_gridCells (num_rows num_cols : Nat) (c : Nat × Nat) :
    c ∈ gridCells num_rows num_cols ↔ c.1 < num_rows ∧ c.2 < num_cols := by
  obtain ⟨ii, jj⟩ := c
  simp only [gridCells, List.mem_flatMap, List.mem_range, List.mem_map, Prod.mk.injEq]
  constructor
  · rintro ⟨a, ha, b, hb, rfl, rfl⟩
    exact ⟨ha, hb⟩
  · rintro ⟨ha, hb⟩
    exact ⟨ii, ha, jj, hb, rfl, rfl⟩

theorem gridCells_head (num_rows num_cols : Nat) (hr : 0 < num_rows) (hc : 0 < num_cols) :
    (gridCells num_rows num_cols)[0]? = some (0, 0) := by
  obtain ⟨r, rfl⟩ := Nat.exists_eq_succ_of_ne_zero (Nat.pos_iff_ne_zero.mp hr)
  obtain ⟨c, rfl⟩ := Nat.exists_eq_succ_of_ne_zero (Nat.pos_iff_ne_zero.mp hc)
  simp [gridCells, List.range_succ_eq_map]

theorem sum_range_indicator {α : Type} [LinearOrderedField α] (n a : Nat) (ha : a < n)
    (f : Nat → α) (hf : ∀ j, j < n → f j = if j = a then 1 else 0) :
    ((List.range n).map f).sum = 1 := by
  have key : ∀ k, k ≤ n →
      ((List.range k).map f).sum = if a < k then 1 else 0 := by
    intro k
    induction k with
    | zero => simp
    | succ k ih =>
      intro hk
      rw [List.range_succ, List.map_append, List.sum_append, ih (Nat.le_of_succ_le hk)]
      simp only [List.map_cons, List.map_nil, List.sum_cons, List.sum_nil, add_zero]
      rw [hf k (by omega)]
      by_cases h1 : a < k
      · have h2 : k ≠ a := by omega
        have h3 : a < k + 1 := by omega
        simp [h1, h2, h3]
      · by_cases h2 : k = a
        · have h3 : a < k + 1 := by omega
          simp [h1, h2, h3]
        · have h3 : ¬ a < k + 1 := by omega
          simp [h1, h2, h3]
  rw [key n (le_refl n), if_pos ha]

theorem sum_range_zero {α : Type} [LinearOrderedField α] (n : Nat) (f : Nat → α)
    (hf : ∀ j, j < n → f j = 0) : ((List.range n).map f).sum = 0 := by
  apply List.sum_eq_zero
  intro x hx
  obtain ⟨j, hj, rfl⟩ := List.mem_map.mp hx
  exact hf j (List.mem_range.mp hj)

/-- The total belief of a matrix that is 1 at one cell of the grid and 0 at
the others is 1. -/
theorem matrixSum_single {α : Type} [LinearOrderedField α] (num_rows num_cols cx cy : Nat)
    (belief : Nat → Nat → α) (hcx : cx < num_rows) (hcy : cy < num_cols)
    (hb : ∀ ii jj, ii < num_rows → jj < num_cols →
      belief ii jj = if ii = cx ∧ jj = cy then 1 else 0) :
    matrixSum num_rows num_cols belief = 1 := by
  unfold matrixSum
  apply sum_range_indicator num_rows cx hcx
  intro ii hii
  by_cases h : ii = cx
  · rw [if_pos h]
    apply sum_range_indicator num_cols cy hcy
    intro jj hjj
    rw [hb ii jj hii hjj]
    simp [h]
  · rw [if_neg h]
    apply sum_range_zero
    intro jj hjj
    rw [hb ii jj hii hjj]
    simp [h]

theorem sum_indicator_nonneg {α : Type} [LinearOrderedField α] (cx cy : Nat)
    (l : List (Nat × Nat)) :
    0 ≤ (l.map fun c => if c.1 = cx ∧ c.2 = cy then (1 : α) else 0).sum := by
  apply List.sum_nonneg
  intro x hx
  obtain ⟨c, _, rfl⟩ := List.mem_map.mp hx
  split_ifs
  · exact zero_le_one
  · exact le_refl 0

theorem sum_indicator_of_not_mem {α : Type} [LinearOrderedField α] (cx cy : Nat)
    (l : List (Nat × Nat)) (h : (cx, cy) ∉ l) :
    (l.map fun c => if c.1 = cx ∧ c.2 = cy then (1 : α) else 0).sum = 0 := by
  apply List.sum_eq_zero
  intro x hx
  obtain ⟨c, hc, rfl⟩ := List.mem_map.mp hx
  have hne : ¬ (c.1 = cx ∧ c.2 = cy) := by
    rintro ⟨h1, h2⟩
    apply h
    have : c = (cx, cy) := Prod.ext h1 h2
    rw [← this]
    exact hc
  rw [if_neg hne]

theorem sum_indicator_of_mem {α : Type} [LinearOrderedField α] (cx cy : Nat)
    (l : List (Nat × Nat)) (h : (cx, cy) ∈ l) :
    1 ≤ (l.map fun c => if c.1 = cx ∧ c.2 = cy then (1 : α) else 0).sum := by
  induction l with
  | nil => simp at h
  | cons c rest ih =>
    simp only [List.map_cons, List.sum_cons]
    rcases List.mem_cons.mp h with hc | hc
    · have h1 : c.1 = cx ∧ c.2 = cy := by
        rw [← hc]
        exact ⟨rfl, rfl⟩
      rw [if_pos h1]
      linarith [sum_indicator_nonneg (α := α) cx cy rest]
    · have := ih hc
      split_ifs <;> linarith

/-- Cumulative belief of a one-cell belief matrix: the normalised masses are
the indicator of the cell. -/
theorem cumulativeBelief_single {α : Type} [LinearOrderedField α] (num_rows num_cols cx cy : Nat)
    (belief : Nat → Nat → α)
    (hb : ∀ ii jj, ii < num_rows → jj < num_cols →
      belief ii jj = if ii = cx ∧ jj = cy then 1 else 0) (t : Nat) :
    cumulativeBelief belief 1 (gridCells num_rows num_cols) t
      = (((gridCells num_rows num_cols).take (t + 1)).map
          fun c => if c.1 = cx ∧ c.2 = cy then (1 : α) else 0).sum := by
  unfold cumulativeBelief
  congr 1
  apply List.map_congr_left
  intro c hc
  have hmem := (mem_gridCells num_rows num_cols c).mp (List.mem_of_mem_take hc)
  rw [hb c.1 c.2 hmem.1 hmem.2, div_one]

theorem sortedDraws_one {α : Type} [LinearOrderedField α] (unif : Nat → α) :
    sortedDraws 1 unif = [unif 0] := by
  simp [sortedDraws]

theorem singleton_of_getElem? {β : Type} (l : List β) (a : β) (hl : l.length = 1)
    (h0 : l[0]? = some a) : l = [a] := by
  match l, hl, h0 with
  | [b], _, h0 =>
    simp only [List.getElem?_cons_zero, Option.some.injEq] at h0
    rw [h0]

/-- One source asked for and a belief that is 1 at the cell `(cx, cy)` and 0
elsewhere: for a draw in `(0, 1]` the walk returns the source at that cell. -/
theorem generateSources_single_pos {α : Type} [LinearOrderedField α] (m : GridMap2D α)
    (unif : Nat → α) (cx cy : Nat) (hcx : cx < m.num_rows) (hcy : cy < m.num_cols)
    (hn : m.num_sources = 1)
    (hb : ∀ ii jj, ii < m.num_rows → jj < m.num_cols →
      m.belief ii jj = if ii = cx ∧ jj = cy then 1 else 0)
    (hu0 : 0 < unif 0) (hu1 : unif 0 ≤ 1) :
    m.GenerateSources unif = some (true, [Source2D.mk cx cy]) := by
  have htot := matrixSum_single m.num_rows m.num_cols cx cy m.belief hcx hcy hb
  obtain ⟨sources, hg, hl, hp⟩ := generateSources_spec m unif
    (by rw [htot]; exact one_ne_zero) (by omega)
    (by
      intro k hk
      have hk0 : k = 0 := by omega
      rw [hk0]
      exact hu1)
  have hE : (sortedDraws m.num_sources unif)[0]? = some (unif 0) := by
    rw [hn, sortedDraws_one]
    rfl
  obtain ⟨t, c, hc, hs, h1, h2⟩ := hp 0 (unif 0) hE
  rw [htot] at h1 h2
  rw [cumulativeBelief_single m.num_rows m.num_cols cx cy m.belief hb] at h1
  have hmem : (cx, cy) ∈ (gridCells m.num_rows m.num_cols).take (t + 1) := by
    by_contra hno
    rw [sum_indicator_of_not_mem cx cy _ hno] at h1
    exact absurd hu0 (not_lt.mpr h1)
  rw [List.take_succ, hc, Option.toList_some, List.mem_append, List.mem_singleton] at hmem
  have hceq : c = (cx, cy) := by
    rcases hmem with hbefore | hhere
    · exfalso
      have ht : 0 < t := by
        rcases Nat.eq_zero_or_pos t with h0 | h0
        · rw [h0] at hbefore
          simp at hbefore
        · exact h0
      have h3 := h2 (t - 1) (by omega)
      rw [cumulativeBelief_single m.num_rows m.num_cols cx cy m.belief hb] at h3
      have h4 : t - 1 + 1 = t := by omega
      rw [h4] at h3
      have h5 := sum_indicator_of_mem (α := α) cx cy _ hbefore
      exact absurd (le_trans hu1 h5) (not_le.mpr h3)
    · exact hhere.symm
  rw [hceq] at hs
  rw [hg, singleton_of_getElem? sources _ (by rw [hl, hn]) hs]

/-- One source asked for and a belief that is 1 at one cell and 0 elsewhere:
for the draw 0 the walk returns the source at the first cell `(0, 0)`,
whichever cell holds the belief. -/
theorem generateSources_single_zero {α : Type} [LinearOrderedField α] (m : GridMap2D α)
    (unif : Nat → α) (cx cy : Nat) (hcx : cx < m.num_rows) (hcy : cy < m.num_cols)
    (hn : m.num_sources = 1)
    (hb : ∀ ii jj, ii < m.num_rows → jj < m.num_cols →
      m.belief ii jj = if ii = cx ∧ jj = cy then 1 else 0)
    (hu : unif 0 = 0) :
    m.GenerateSources unif = some (true, [Source2D.mk 0 0]) := by
  have htot := matrixSum_single m.num_rows m.num_cols cx cy m.belief hcx hcy hb
  obtain ⟨sources, hg, hl, hp⟩ := generateSources_spec m unif
    (by rw [htot]; exact one_ne_zero) (by omega)
    (by
      intro k hk
      have hk0 : k = 0 := by omega
      rw [hk0, hu]
      exact zero_le_one)
  have hE : (sortedDraws m.num_sources unif)[0]? = some (unif 0) := by
    rw [hn, sortedDraws_one]
    rfl
  obtain ⟨t, c, hc, hs, _, h2⟩ := hp 0 (unif 0) hE
  rw [htot] at h2
  have ht : t = 0 := by
    by_contra hpos
    have h3 := h2 0 (Nat.pos_of_ne_zero hpos)
    rw [cumulativeBelief_single m.num_rows m.num_cols cx cy m.belief hb, hu] at h3
    exact absurd (sum_indicator_nonneg (α := α) cx cy _) (not_le.mpr h3)
  rw [ht, gridCells_head m.num_rows m.num_cols (by omega) (by omega),
    Option.some.injEq] at hc
  rw [← hc] at hs
  rw [hg, singleton_of_getElem? sources _ (by rw [hl, hn]) hs]

/-! ## Source sampling theorems -/

/-- C7, as stated, fails: on a 1 by 2 grid whose belief is 1 at the cell
`(0, 1)` and 0 at `(0, 0)`, with one source and the draw 0 (a value the
uniform draw on `[0, 1)` can take), `GenerateSources` returns the source at
`(0, 0)`, not at `(0, 1)`. -/
theorem generateSources_draw_zero_first_cell :
    GridMap2D.GenerateSources
      { num_rows := 1, num_cols := 2, num_sources := 1, regularizer := (1 : ℝ),
        belief := fun ii jj => if ii = 0 ∧ jj = 1 then 1 else 0,
        viewed := [], measurements := [] }
      (fun _ => 0) = some (true, [Source2D.mk 0 0]) ∧
    [Source2D.mk 0 0] ≠ [Source2D.mk 0 1] :=
  ⟨generateSources_single_zero _ _ 0 1 (by decide) (by decide) rfl
      (fun ii jj _ _ => rfl) rfl,
    by decide⟩

/-- C7, amended. For every grid and every cell `c = (cx, cy)` of it, when the
belief is 0 everywhere except 1 at `c` and `num_sources = 1`,
`GenerateSources` succeeds and returns the single source at `c` for every
draw `u` with `0 < u <= 1`; for the draw `u = 0` it succeeds and returns the
single source at the first cell `(0, 0)` of the walk. -/
theorem generateSources_single_cell {α : Type} [LinearOrderedField α] (m : GridMap2D α)
    (unif : Nat → α) (cx cy : Nat) (hcx : cx < m.num_rows) (hcy : cy < m.num_cols)
    (hn : m.num_sources = 1)
    (hb : ∀ ii jj, ii < m.num_rows → jj < m.num_cols →
      m.belief ii jj = if ii = cx ∧ jj = cy then 1 else 0) :
    (0 < unif 0 → unif 0 ≤ 1 →
      m.GenerateSources unif = some (true, [Source2D.mk cx cy])) ∧
    (unif 0 = 0 → m.GenerateSources unif = some (true, [Source2D.mk 0 0])) :=
  ⟨generateSources_single_pos m unif cx cy hcx hcy hn hb,
    generateSources_single_zero m unif cx cy hcx hcy hn hb⟩

/-- Witness of the amended C7: the 1 by 2 grid with the belief at `(0, 1)`
and the draw one half. -/
theorem generateSources_single_cell_witness :
    GridMap2D.GenerateSources
      { num_rows := 1, num_cols := 2, num_sources := 1, regularizer := (1 : ℝ),
        belief := fun ii jj => if ii = 0 ∧ jj = 1 then 1 else 0,
        viewed := [], measurements := [] }
      (fun _ => 1 / 2) = some (true, [Source2D.mk 0 1]) :=
  (generateSources_single_cell
      { num_rows := 1, num_cols := 2, num_sources := 1, regularizer := (1 : ℝ),
        belief := fun ii jj => if ii = 0 ∧ jj = 1 then 1 else 0,
        viewed := [], measurements := [] }
      (fun _ => 1 / 2) 0 1 (by decide) (by decide) rfl (fun ii jj _ _ => rfl)).1
    (by norm_num) (by norm_num)

/-- C10. Inverse-CDF sampling never falls through, in exact arithmetic: for
every belief matrix with positive total (the sign of the single entries is
not needed), every `num_sources >= 1` and draws in `[0, 1)`,
`GenerateSources` returns `true` with exactly `num_sources` sources, and the
source of the `k`-th smallest draw is at the first cell in row-major order
whose cumulative normalised belief mass is at least that draw. -/
theorem generateSources_inverse_cdf {α : Type} [LinearOrderedField α] (m : GridMap2D α)
    (unif : Nat → α) (hpos : 0 < matrixSum m.num_rows m.num_cols m.belief)
    (hn : 1 ≤ m.num_sources) (hdraws : ∀ k, k < m.num_sources → 0 ≤ unif k ∧ unif k < 1) :
    ∃ sources, m.GenerateSources unif = some (true, sources) ∧
      sources.length = m.num_sources ∧
      ∀ (k : Nat) (e : α), (sortedDraws m.num_sources unif)[k]? = some e →
        ∃ (t : Nat) (c : Nat × Nat), (gridCells m.num_rows m.num_cols)[t]? = some c ∧
          sources[k]? = some (Source2D.mk c.1 c.2) ∧
          e ≤ cumulativeBelief m.belief (matrixSum m.num_rows m.num_cols m.belief)
            (gridCells m.num_rows m.num_cols) t ∧
          ∀ t1, t1 < t →
            cumulativeBelief m.belief (matrixSum m.num_rows m.num_cols m.belief)
              (gridCells m.num_rows m.num_cols) t1 < e :=
  generateSources_spec m unif (ne_of_gt hpos) hn (fun k hk => le_of_lt (hdraws k hk).2)

/-- Witness of C10: a 1 by 2 grid with belief 1 and 3, two sources, draws
three quarters and one quarter. -/
theorem generateSources_inverse_cdf_witness :
    ∃ sources,
      GridMap2D.GenerateSources
        { num_rows := 1, num_cols := 2, num_sources := 2, regularizer := (1 : ℚ),
          belief := fun _ jj => if jj = 0 then 1 else 3,
          viewed := [], measurements := [] }
        (fun k => if k = 0 then 3 / 4 else 1 / 4) = some (true, sources) ∧
      sources.length = 2 := by
  obtain ⟨sources, h1, h2, _⟩ := generateSources_inverse_cdf
    { num_rows := 1, num_cols := 2, num_sources := 2, regularizer := (1 : ℚ),
      belief := fun _ jj => if jj = 0 then 1 else 3,
      viewed := [], measurements := [] }
    (fun k => if k = 0 then 3 / 4 else 1 / 4)
    (by norm_num [matrixSum, List.range_succ])
    (by decide)
    (by
      intro k _
      by_cases h : k = 0
      · simp only [h, if_true]
        norm_num
      · simp only [h, if_false]
        norm_num)
  exact ⟨sources, h1, h2⟩

/-! ## Construction -/

theorem entropy_of_zero_belief (m : GridMap2D ℝ) (h : ∀ ii jj, m.belief ii jj = 0) :
    m.Entropy Real.log = 0 := by
  have hb : bernoulliEntropy Real.log (0 : ℝ) = 0 := by
    unfold bernoulliEntropy
    rw [if_neg]
    rintro ⟨h1, _⟩
    norm_num at h1
  have inner : ∀ (ii : Nat) (l : List Nat) (e : ℝ),
      l.foldl (fun entropy jj => entropy + bernoulliEntropy Real.log (m.belief ii jj)) e
        = e := by
    intro ii l
    induction l with
    | nil => intro e; rfl
    | cons jj rest ih =>
      intro e
      simp only [List.foldl_cons, h, hb, add_zero]
      simpa only [h, hb, add_zero] using ih e
  have outer : ∀ (l : List Nat) (e : ℝ),
      l.foldl (fun entropy ii => (List.range m.num_cols).foldl
        (fun entropy jj => entropy + bernoulliEntropy Real.log (m.belief ii jj)) entropy) e
        = e := by
    intro l
    induction l with
    | nil => intro e; rfl
    | cons ii rest ih =>
      intro e
      rw [List.foldl_cons, inner]
      exact ih e
  exact outer _ 0

/-- C11, as stated, fails: for the grid of 65536 rows and 65537 columns with
one source the product `num_rows_ * num_cols_` wraps to 65536, and every cell
of the new map holds `1 / 65536`, not `1 / (65536 * 65537)`. -/
theorem uniform_prior_wraps :
    (GridMap2D.construct 65536 65537 1 (1 : ℝ)).belief 0 0 = 1 / 65536 ∧
    (GridMap2D.construct 65536 65537 1 (1 : ℝ)).belief 0 0
      ≠ (1 : ℝ) / ((65536 : ℝ) * (65537 : ℝ)) := by
  have h : (GridMap2D.construct 65536 65537 1 (1 : ℝ)).belief 0 0 = 1 / 65536 := by
    simp only [GridMap2D.construct, uintWidth]
    norm_num
  refine ⟨h, ?_⟩
  rw [h]
  norm_num

/-- C11, amended. A newly constructed `GridMap2D` with `num_rows >= 1`,
`num_cols >= 1` and `num_rows * num_cols < 2 ^ 32` has every cell of its
belief matrix equal to `num_sources / (num_rows * num_cols)`; in particular,
for every such grid, when `num_sources = 0` every cell is 0 and `Entropy()`
returns exactly 0.  (The first part records that the divisor the constructor
computes is the number of cells and is not zero.) -/
theorem uniform_prior (num_rows num_cols num_sources : Nat) (regularizer : ℝ)
    (hr : 1 ≤ num_rows) (hc : 1 ≤ num_cols) (hfit : num_rows * num_cols < 2 ^ 32) :
    ((num_rows * num_cols) % uintWidth = num_rows * num_cols ∧ 0 < num_rows * num_cols) ∧
    (∀ ii jj, (GridMap2D.construct num_rows num_cols num_sources regularizer).belief ii jj
      = (num_sources : ℝ) / ((num_rows : ℝ) * (num_cols : ℝ))) ∧
    (num_sources = 0 →
      (∀ ii jj, (GridMap2D.construct num_rows num_cols num_sources regularizer).belief ii jj
        = 0) ∧
      (GridMap2D.construct num_rows num_cols num_sources regularizer).Entropy Real.log = 0) := by
  have hcell : ∀ ii jj,
      (GridMap2D.construct num_rows num_cols num_sources regularizer).belief ii jj
        = (num_sources : ℝ) / ((num_rows : ℝ) * (num_cols : ℝ)) := by
    intro ii jj
    simp only [GridMap2D.construct, uintWidth, Nat.mod_eq_of_lt hfit, one_mul, Nat.cast_mul]
  refine ⟨⟨Nat.mod_eq_of_lt hfit, Nat.mul_pos hr hc⟩, hcell, ?_⟩
  intro h0
  have hzero : ∀ ii jj,
      (GridMap2D.construct num_rows num_cols num_sources regularizer).belief ii jj = 0 := by
    intro ii jj
    rw [hcell, h0]
    simp
  exact ⟨hzero, entropy_of_zero_belief _ hzero⟩

/-- Witness of the amended C11: Scenario A, the 1 by 1 grid without sources. -/
theorem uniform_prior_witness :
    (∀ ii jj, (GridMap2D.construct 1 1 0 (1 : ℝ)).belief ii jj = 0) ∧
    (GridMap2D.construct 1 1 0 (1 : ℝ)).Entropy Real.log = 0 :=
  (uniform_prior 1 1 0 1 (le_refl 1) (le_refl 1) (by norm_num)).2.2 rfl

/-! ## Driver -/

/-- When `SingleIteration` takes its first `return`: exactly when
`iterate_forever` is off and `step_count` is below `num_iterations`. -/
theorem singleIteration_returns_at_once_iff {Explorer Trajectory Entropy : Type}
    (PlanAhead : Explorer → Option Trajectory × Explorer)
    (TakeStep : Explorer → Trajectory → Entropy × Explorer)
    (iterate_forever : Bool) (num_iterations : Int) (d : Driver Explorer) :
    (SingleIteration PlanAhead TakeStep iterate_forever num_iterations d).1
        = IterationStep.returnedAtOnce ↔
      (iterate_forever = false ∧
        d.step_count < (num_iterations % (uintWidth : Int)).toNat) := by
  unfold SingleIteration
  by_cases hlt : d.step_count < (num_iterations % (uintWidth : Int)).toNat
  · cases iterate_forever
    · simp [hlt]
    · simp only [Bool.not_true, Bool.false_and, Bool.false_eq_true, if_false, false_and,
        iff_false]
      cases PlanAhead d.explorer with
      | mk o e1 => cases o <;> simp
  · simp only [hlt, decide_False, Bool.and_false, Bool.false_eq_true, if_false, and_false,
      iff_false]
    cases PlanAhead d.explorer with
    | mk o e1 => cases o <;> simp

/-- C14: the code does the opposite of the claim (and of its own comment).
With `iterate_forever` off and `num_iterations = 10`, a call at
`step_count = 0`, below the limit, returns at once, without planning or
stepping and with the counter unchanged, although `PlanAhead` would succeed;
a call at `step_count = 10`, with the limit reached, plans, takes the step
and raises the counter to 11. -/
theorem singleIteration_limit_inverted :
    SingleIteration (fun (e : Nat) => (some e, e)) (fun (e : Nat) (t : Nat) => (t, e + 1))
        false 10 { explorer := 0, step_count := 0 }
      = (IterationStep.returnedAtOnce, { explorer := 0, step_count := 0 }) ∧
    SingleIteration (fun (e : Nat) => (some e, e)) (fun (e : Nat) (t : Nat) => (t, e + 1))
        false 10 { explorer := 0, step_count := 10 }
      = (IterationStep.tookStep, { explorer := 1, step_count := 11 }) := by
  constructor <;> simp [SingleIteration, uintWidth]

/-! ## Update lemmas -/

theorem foldl_collect {ι β : Type} (p : ι → Bool) (f : ι → β) (l : List ι) (init : List β) :
    l.foldl (fun acc x => if p x then acc ++ [f x] else acc) init
      = init ++ (l.filter p).map f := by
  induction l generalizing init with
  | nil => simp
  | cons x rest ih =>
    rw [List.foldl_cons, ih]
    by_cases hp : p x = true
    · simp [hp]
    · simp [hp]

theorem foldl_collect_nested (p : Nat → Nat → Bool) (f : Nat → Nat → Nat) (rows cols : List Nat)
    (init : List Nat) :
    rows.foldl
        (fun voxels ii =>
          cols.foldl (fun voxels jj => if p ii jj then voxels ++ [f ii jj] else voxels) voxels)
        init
      = init ++ (((rows.flatMap fun ii => cols.map fun jj => (ii, jj)).filter
          fun c => p c.1 c.2).map fun c => f c.1 c.2) := by
  induction rows generalizing init with
  | nil => simp
  | cons ii rest ih =>
    rw [List.foldl_cons, foldl_collect (p ii) (f ii) cols init, ih]
    simp only [List.flatMap_cons, List.filter_append, List.map_append, List.filter_map,
      List.map_map, List.append_assoc]
    rfl

/-- The voxels recorded by `Update`: the cells in view, in the order of the
walk over the grid, each by its stored index. -/
theorem voxelsInView_eq (num_rows num_cols : Nat) (sensor : Sensor2D) :
    voxelsInView num_rows num_cols sensor
      = (((gridCells num_rows num_cols).filter fun c => sensor.VoxelInView c.1 c.2).map
          fun c => (c.1 + c.2 * num_rows) % uintWidth) := by
  unfold voxelsInView gridCells
  rw [foldl_collect_nested (fun ii jj => sensor.VoxelInView ii jj)
    (fun ii jj => (ii + jj * num_rows) % uintWidth)]
  simp

theorem nodup_gridCells (num_rows num_cols : Nat) : (gridCells num_rows num_cols).Nodup :=
  List.Nodup.product (List.nodup_range num_rows) (List.nodup_range num_cols)

theorem cell_index_lt (num_rows num_cols ii jj : Nat) (hi : ii < num_rows) (hj : jj < num_cols) :
    ii + jj * num_rows < num_rows * num_cols := by
  calc ii + jj * num_rows < num_rows + jj * num_rows := by omega
    _ = (jj + 1) * num_rows := by ring
    _ ≤ num_cols * num_rows := Nat.mul_le_mul_right _ hj
    _ = num_rows * num_cols := Nat.mul_comm _ _

theorem cell_index_injective (num_rows : Nat) (a b : Nat × Nat) (ha : a.1 < num_rows)
    (hb : b.1 < num_rows) (h : a.1 + a.2 * num_rows = b.1 + b.2 * num_rows) : a = b := by
  have h1 : (a.1 + a.2 * num_rows) % num_rows = (b.1 + b.2 * num_rows) % num_rows := by rw [h]
  rw [Nat.add_mul_mod_self_right, Nat.add_mul_mod_self_right, Nat.mod_eq_of_lt ha,
    Nat.mod_eq_of_lt hb] at h1
  have hpos : 0 < num_rows := Nat.lt_of_le_of_lt (Nat.zero_le _) ha
  have h2 : a.2 * num_rows = b.2 * num_rows := by omega
  exact Prod.ext h1 (Nat.eq_of_mul_eq_mul_right hpos h2)

theorem filter_eq_singleton {β : Type} (l : List β) (a : β) (p : β → Bool) (hl : l.Nodup)
    (ha : a ∈ l) (hp : ∀ x ∈ l, p x = true ↔ x = a) : l.filter p = [a] := by
  induction l with
  | nil => simp at ha
  | cons x rest ih =>
    rw [List.nodup_cons] at hl
    have hrest : ∀ y ∈ rest, p y = true ↔ y = a :=
      fun y hy => hp y (List.mem_cons_of_mem _ hy)
    by_cases hx : x = a
    · have hpx : p x = true := (hp x (List.mem_cons_self _ _)).mpr hx
      have hnone : rest.filter p = [] := by
        rw [List.filter_eq_nil_iff]
        intro y hy hpy
        have hya : y = a := (hrest y hy).mp hpy
        rw [hya, ← hx] at hy
        exact hl.1 hy
      rw [List.filter_cons_of_pos hpx, hnone, hx]
    · have hpx : ¬ p x = true := fun h => hx ((hp x (List.mem_cons_self _ _)).mp h)
      have hmem : a ∈ rest := by
        rcases List.mem_cons.mp ha with h | h
        · exact absurd h.symm hx
        · exact h
      rw [List.filter_cons_of_neg hpx]
      exact ih hl.2 hmem hrest

/-- A sensor that sees exactly one cell of the grid records exactly the stored
index of that cell. -/
theorem voxelsInView_single (num_rows num_cols a b : Nat) (sensor : Sensor2D)
    (ha : a < num_rows) (hb : b < num_cols)
    (hview : ∀ ii jj, sensor.VoxelInView ii jj = (ii == a && jj == b)) :
    voxelsInView num_rows num_cols sensor = [(a + b * num_rows) % uintWidth] := by
  have hfilter : ((gridCells num_rows num_cols).filter fun c => sensor.VoxelInView c.1 c.2)
      = [(a, b)] := by
    apply filter_eq_singleton _ _ _ (nodup_gridCells num_rows num_cols)
      ((mem_gridCells num_rows num_cols (a, b)).mpr ⟨ha, hb⟩)
    intro c _
    obtain ⟨c1, c2⟩ := c
    simp only [hview, Bool.and_eq_true, beq_iff_eq, Prod.mk.injEq]
  rw [voxelsInView_eq, hfilter]
  rfl

/-- What `Update` without a solve does to the map, whatever the size of the
grid. -/
theorem update_without_solve {α : Type} [LinearOrderedField α]
    (ceresSolve : Problem α → (Nat → α) → (Nat → α) × Bool) (m : GridMap2D α)
    (sensor : Sensor2D) (sources : List Source2D) (hmeas : sensor.Sense sources ≤ m.num_sources) :
    m.Update ceresSolve sensor sources false
      = some (true,
          { m with
            viewed := m.viewed ++ [voxelsInView m.num_rows m.num_cols sensor]
            measurements := m.measurements ++ [sensor.Sense sources] }) := by
  simp [GridMap2D.Update, hmeas]

/-- On a grid whose cell indices fit an `unsigned int`, the recorded voxels are
the indices `ii + jj * num_rows` of the cells in view, each once and each
below the number of cells. -/
theorem voxelsInView_spec (num_rows num_cols : Nat) (sensor : Sensor2D)
    (hfit : num_rows * num_cols ≤ 2 ^ 32) :
    voxelsInView num_rows num_cols sensor
        = (((gridCells num_rows num_cols).filter fun c => sensor.VoxelInView c.1 c.2).map
            fun c => c.1 + c.2 * num_rows) ∧
    (voxelsInView num_rows num_cols sensor).Nodup ∧
    (∀ v ∈ voxelsInView num_rows num_cols sensor, v < num_rows * num_cols) ∧
    (∀ ii jj, ii < num_rows → jj < num_cols →
      (ii + jj * num_rows ∈ voxelsInView num_rows num_cols sensor ↔
        sensor.VoxelInView ii jj = true)) := by
  have hgrid : ∀ c ∈ (gridCells num_rows num_cols).filter fun c => sensor.VoxelInView c.1 c.2,
      c.1 < num_rows ∧ c.2 < num_cols ∧ sensor.VoxelInView c.1 c.2 = true := by
    intro c hc
    rw [List.mem_filter] at hc
    have := (mem_gridCells num_rows num_cols c).mp hc.1
    exact ⟨this.1, this.2, hc.2⟩
  have heq : voxelsInView num_rows num_cols sensor
      = (((gridCells num_rows num_cols).filter fun c => sensor.VoxelInView c.1 c.2).map
          fun c => c.1 + c.2 * num_rows) := by
    rw [voxelsInView_eq]
    apply List.map_congr_left
    intro c hc
    have h1 := hgrid c hc
    have h2 := cell_index_lt num_rows num_cols c.1 c.2 h1.1 h1.2.1
    exact Nat.mod_eq_of_lt (lt_of_lt_of_le h2 hfit)
  refine ⟨heq, ?_, ?_, ?_⟩
  · rw [heq]
    apply List.Nodup.map_on
    · intro x hx y hy hxy
      exact cell_index_injective num_rows x y (hgrid x hx).1 (hgrid y hy).1 hxy
    · exact (nodup_gridCells num_rows num_cols).filter _
  · intro v hv
    rw [heq, List.mem_map] at hv
    obtain ⟨c, hc, rfl⟩ := hv
    have h1 := hgrid c hc
    exact cell_index_lt num_rows num_cols c.1 c.2 h1.1 h1.2.1
  · intro ii jj hi hj
    rw [heq, List.mem_map]
    constructor
    · rintro ⟨c, hc, hidx⟩
      have h1 := hgrid c hc
      have hceq : c = (ii, jj) := cell_index_injective num_rows c (ii, jj) h1.1 hi hidx
      rw [hceq] at h1
      exact h1.2.2
    · intro hv
      refine ⟨(ii, jj), ?_, rfl⟩
      rw [List.mem_filter]
      exact ⟨(mem_gridCells num_rows num_cols (ii, jj)).mpr ⟨hi, hj⟩, hv⟩

/-! ## Update theorems -/

/-- C13, as stated, fails: on a grid of 2 rows and 2147483649 columns, with a
sensor that sees only the cell `(0, 2147483648)`, `Update` without a solve
records the voxel list `[0]`: the index `0 + 2147483648 * 2 = 4294967296` of
the cell in view does not fit the `unsigned int` it is stored in, and what
is stored is the index of the cell `(0, 0)`, which is not in view. -/
theorem update_index_truncated :
    (GridMap2D.Update (fun _ x => (x, true))
        { num_rows := 2, num_cols := 2147483649, num_sources := 1, regularizer := (1 : ℚ),
          belief := fun _ _ => 0, viewed := [], measurements := [] }
        { Sense := fun _ => 0, VoxelInView := fun ii jj => (ii == 0 && jj == 2147483648) }
        [] false).map (fun r => r.2.viewed) = some [[0]] ∧
    (0 + 2147483648 * 2 : Nat) ≠ 0 := by
  refine ⟨?_, by decide⟩
  rw [update_without_solve _ _ _ _ (Nat.zero_le _)]
  simp only [Option.map_some', List.nil_append]
  rw [voxelsInView_single 2 2147483649 0 2147483648 _ (by decide) (by decide)
    (fun ii jj => rfl)]
  rfl

/-- C13, amended. For every map state whose grid has at most `2 ^ 32` cells,
every sensor and every source list whose measurement is `<= num_sources`,
`Update(sensor, sources, solve = false)` returns true, leaves the belief
matrix, the other members and all earlier history entries unchanged, and
appends exactly one entry to each of the two history lists (so their lengths
stay equal): the measurement `sensor.Sense(sources)`, and the list of the
indices `ii + jj * num_rows` of exactly the cells `(ii, jj)` in view, each
index below `num_rows * num_cols` and occurring once. -/
theorem update_appends_history {α : Type} [LinearOrderedField α]
    (ceresSolve : Problem α → (Nat → α) → (Nat → α) × Bool) (m : GridMap2D α)
    (sensor : Sensor2D) (sources : List Source2D)
    (hmeas : sensor.Sense sources ≤ m.num_sources)
    (hfit : m.num_rows * m.num_cols ≤ 2 ^ 32) :
    ∃ (m1 : GridMap2D α) (voxels : List Nat),
      m.Update ceresSolve sensor sources false = some (true, m1) ∧
      m1.belief = m.belief ∧ m1.num_rows = m.num_rows ∧ m1.num_cols = m.num_cols ∧
      m1.num_sources = m.num_sources ∧ m1.regularizer = m.regularizer ∧
      m1.measurements = m.measurements ++ [sensor.Sense sources] ∧
      m1.viewed = m.viewed ++ [voxels] ∧
      (m.viewed.length = m.measurements.length → m1.viewed.length = m1.measurements.length) ∧
      voxels = (((gridCells m.num_rows m.num_cols).filter
          fun c => sensor.VoxelInView c.1 c.2).map fun c => c.1 + c.2 * m.num_rows) ∧
      voxels.Nodup ∧
      (∀ v ∈ voxels, v < m.num_rows * m.num_cols) ∧
      (∀ ii jj, ii < m.num_rows → jj < m.num_cols →
        (ii + jj * m.num_rows ∈ voxels ↔ sensor.VoxelInView ii jj = true)) := by
  obtain ⟨h1, h2, h3, h4⟩ := voxelsInView_spec m.num_rows m.num_cols sensor hfit
  refine ⟨_, voxelsInView m.num_rows m.num_cols sensor,
    update_without_solve ceresSolve m sensor sources hmeas,
    rfl, rfl, rfl, rfl, rfl, rfl, rfl, ?_, h1, h2, h3, h4⟩
  intro hlen
  simp [hlen]

/-- Witness of the amended C13: a 2 by 2 grid, a sensor that sees the first
row and measures one source. -/
theorem update_appends_history_witness :
    ∃ (m1 : GridMap2D ℚ) (voxels : List Nat),
      GridMap2D.Update (fun _ x => (x, true))
        { num_rows := 2, num_cols := 2, num_sources := 1, regularizer := (1 : ℚ),
          belief := fun _ _ => 1 / 4, viewed := [], measurements := [] }
        { Sense := fun _ => 1, VoxelInView := fun ii _ => ii == 0 }
        [Source2D.mk 0 1] false = some (true, m1) ∧
      m1.measurements = [] ++ [1] ∧ m1.viewed = [] ++ [voxels] ∧ voxels.Nodup := by
  obtain ⟨m1, voxels, h1, _, _, _, _, _, h7, h8, _, _, h11, _⟩ :=
    update_appends_history (fun _ x => (x, true))
      { num_rows := 2, num_cols := 2, num_sources := 1, regularizer := (1 : ℚ),
        belief := fun _ _ => 1 / 4, viewed := [], measurements := [] }
      { Sense := fun _ => 1, VoxelInView := fun ii _ => ii == 0 }
      [Source2D.mk 0 1] (le_refl 1) (by norm_num)
  exact ⟨m1, voxels, h1, h7, h8, h11⟩

/-! ## Belief solver -/

/-- The bounds that `SolveLeastSquares` sets: on a grid with fewer than
`2 ^ 31` cells, the lower bound 0 and the upper bound 1 on the index of every
cell, and on no other index. -/
theorem leastSquaresProblem_bounds {α : Type} [LinearOrderedField α] (m : GridMap2D α)
    (hfit : m.num_rows * m.num_cols < 2 ^ 31) :
    (∀ ii jj, ii < m.num_rows → jj < m.num_cols →
      (ii + jj * m.num_rows, (0 : α)) ∈ m.leastSquaresProblem.lower_bounds ∧
      (ii + jj * m.num_rows, (1 : α)) ∈ m.leastSquaresProblem.upper_bounds) ∧
    (∀ b ∈ m.leastSquaresProblem.lower_bounds, b.1 < m.num_rows * m.num_cols ∧ b.2 = 0) ∧
    (∀ b ∈ m.leastSquaresProblem.upper_bounds, b.1 < m.num_rows * m.num_cols ∧ b.2 = 1) := by
  have hmod : (m.num_rows * m.num_cols) % uintWidth = m.num_rows * m.num_cols :=
    Nat.mod_eq_of_lt (lt_trans hfit (by norm_num [uintWidth]))
  simp only [GridMap2D.leastSquaresProblem, hmod, List.mem_map, List.mem_range]
  refine ⟨?_, ?_, ?_⟩
  · intro ii jj hi hj
    have h := cell_index_lt m.num_rows m.num_cols ii jj hi hj
    exact ⟨⟨_, h, rfl⟩, ⟨_, h, rfl⟩⟩
  · rintro b ⟨i, hi, rfl⟩
    exact ⟨hi, rfl⟩
  · rintro b ⟨i, hi, rfl⟩
    exact ⟨hi, rfl⟩

theorem data_at_cell {α : Type} (m : GridMap2D α) (ii jj : Nat) (hi : ii < m.num_rows) :
    m.data (ii + jj * m.num_rows) = m.belief ii jj := by
  have hpos : 0 < m.num_rows := Nat.lt_of_le_of_lt (Nat.zero_le _) hi
  unfold GridMap2D.data
  rw [Nat.add_mul_mod_self_right, Nat.mod_eq_of_lt hi, Nat.add_mul_div_right _ _ hpos,
    Nat.div_eq_of_lt hi, Nat.zero_add]

/-- C12, as stated, fails.  A new map of 2 by 2 cells with 8 sources has the
prior 2 in every cell; a solve that fails leaves the matrix as it was (an
outcome the solver may have), and after the call the cell `(0, 0)` still
holds 2, which is not in `[0, 1]`.  And on the grid of 65536 rows and 65537
columns the bounds loop runs up to the wrapped product 65536 only: no bound
is set on the index 65536 of the cell `(0, 1)`. -/
theorem solveLeastSquares_keeps_prior_above_one :
    SolveOutcome (GridMap2D.construct 2 2 8 (1 : ℚ)).leastSquaresProblem
      (GridMap2D.construct 2 2 8 (1 : ℚ)).data
      ((GridMap2D.construct 2 2 8 (1 : ℚ)).data, false) ∧
    (GridMap2D.SolveLeastSquares (fun _ x => (x, false))
        (GridMap2D.construct 2 2 8 (1 : ℚ))).map (fun r => (r.1, r.2.belief 0 0))
      = some (false, 2) ∧
    ¬ ((2 : ℚ) ≤ 1) ∧
    ((0 + 1 * 65536 : Nat), (0 : ℚ))
      ∉ (GridMap2D.construct 65536 65537 1 (1 : ℚ)).leastSquaresProblem.lower_bounds := by
  refine ⟨⟨?_, fun _ => rfl⟩, ?_, by norm_num, ?_⟩
  · intro h
    cases h
  · simp only [GridMap2D.SolveLeastSquares, GridMap2D.construct, GridMap2D.data, uintWidth]
    norm_num
  · simp only [GridMap2D.leastSquaresProblem, GridMap2D.construct, uintWidth, List.mem_map,
      List.mem_range, Prod.mk.injEq]
    norm_num

/-- C12, amended.  On a grid with fewer than `2 ^ 31` cells (and a history
with a measurement for every viewed set) `SolveLeastSquares` returns, having
set lower bound 0 and upper bound 1 on the index of every cell and on no
other index.  When the solution is usable every cell of the belief matrix is
in `[0, 1]`; when the solve failed the matrix retains its last value, so
after any call every cell is in `[0, 1]` if it was before the call. -/
theorem solveLeastSquares_belief_bounds {α : Type} [LinearOrderedField α]
    (ceresSolve : Problem α → (Nat → α) → (Nat → α) × Bool) (m : GridMap2D α)
    (hfit : m.num_rows * m.num_cols < 2 ^ 31)
    (hhist : m.viewed.length ≤ m.measurements.length)
    (hsolver : SolveOutcome m.leastSquaresProblem m.data
      (ceresSolve m.leastSquaresProblem m.data)) :
    ∃ (usable : Bool) (m1 : GridMap2D α),
      m.SolveLeastSquares ceresSolve = some (usable, m1) ∧
      (∀ ii jj, ii < m.num_rows → jj < m.num_cols →
        (ii + jj * m.num_rows, (0 : α)) ∈ m.leastSquaresProblem.lower_bounds ∧
        (ii + jj * m.num_rows, (1 : α)) ∈ m.leastSquaresProblem.upper_bounds) ∧
      (∀ b ∈ m.leastSquaresProblem.lower_bounds,
        b.1 < m.num_rows * m.num_cols ∧ b.2 = 0) ∧
      (∀ b ∈ m.leastSquaresProblem.upper_bounds,
        b.1 < m.num_rows * m.num_cols ∧ b.2 = 1) ∧
      (usable = true → ∀ ii jj, ii < m.num_rows → jj < m.num_cols →
        0 ≤ m1.belief ii jj ∧ m1.belief ii jj ≤ 1) ∧
      (usable = false → ∀ ii jj, ii < m.num_rows → jj < m.num_cols →
        m1.belief ii jj = m.belief ii jj) ∧
      ((∀ ii jj, ii < m.num_rows → jj < m.num_cols →
          0 ≤ m.belief ii jj ∧ m.belief ii jj ≤ 1) →
        ∀ ii jj, ii < m.num_rows → jj < m.num_cols →
          0 ≤ m1.belief ii jj ∧ m1.belief ii jj ≤ 1) := by
  obtain ⟨hset, hlower, hupper⟩ := leastSquaresProblem_bounds m hfit
  have hmod : (m.num_rows * m.num_cols) % uintWidth < 2 ^ 31 := by
    rw [Nat.mod_eq_of_lt (lt_trans hfit (by norm_num [uintWidth]))]
    exact hfit
  have hret : m.SolveLeastSquares ceresSolve
      = some ((ceresSolve m.leastSquaresProblem m.data).2,
          { m with belief := fun ii jj =>
              (ceresSolve m.leastSquaresProblem m.data).1 (ii + jj * m.num_rows) }) := by
    simp only [GridMap2D.SolveLeastSquares, if_pos (And.intro hhist hmod)]
  have husable : (ceresSolve m.leastSquaresProblem m.data).2 = true →
      ∀ ii jj, ii < m.num_rows → jj < m.num_cols →
        0 ≤ (ceresSolve m.leastSquaresProblem m.data).1 (ii + jj * m.num_rows) ∧
        (ceresSolve m.leastSquaresProblem m.data).1 (ii + jj * m.num_rows) ≤ 1 := by
    intro hflag ii jj hi hj
    obtain ⟨hlo, hhi⟩ := hsolver.1 hflag
    exact ⟨hlo _ (hset ii jj hi hj).1, hhi _ (hset ii jj hi hj).2⟩
  have hfailed : (ceresSolve m.leastSquaresProblem m.data).2 = false →
      ∀ ii jj, ii < m.num_rows → jj < m.num_cols →
        (ceresSolve m.leastSquaresProblem m.data).1 (ii + jj * m.num_rows)
          = m.belief ii jj := by
    intro hflag ii jj hi _
    rw [hsolver.2 hflag, data_at_cell m ii jj hi]
  refine ⟨_, _, hret, hset, hlower, hupper, husable, hfailed, ?_⟩
  intro hbefore ii jj hi hj
  cases hflag : (ceresSolve m.leastSquaresProblem m.data).2 with
  | true => exact husable hflag ii jj hi hj
  | false =>
    show 0 ≤ (ceresSolve m.leastSquaresProblem m.data).1 (ii + jj * m.num_rows) ∧
      (ceresSolve m.leastSquaresProblem m.data).1 (ii + jj * m.num_rows) ≤ 1
    rw [hfailed hflag ii jj hi hj]
    exact hbefore ii jj hi hj

/-- Witness of the amended C12: a new 2 by 2 map with one source and a solver
that returns one half for every parameter as a usable solution. -/
theorem solveLeastSquares_belief_bounds_witness :
    ∃ (usable : Bool) (m1 : GridMap2D ℚ),
      GridMap2D.SolveLeastSquares (fun _ _ => (fun _ => 1 / 2, true))
        (GridMap2D.construct 2 2 1 (1 : ℚ)) = some (usable, m1) ∧
      (usable = true → ∀ ii jj, ii < 2 → jj < 2 →
        0 ≤ m1.belief ii jj ∧ m1.belief ii jj ≤ 1) := by
  obtain ⟨usable, m1, h1, _, _, _, h5, _⟩ := solveLeastSquares_belief_bounds
    (fun _ _ => (fun _ => 1 / 2, true)) (GridMap2D.construct 2 2 1 (1 : ℚ))
    (by norm_num [GridMap2D.construct]) (le_refl 0)
    (by
      refine ⟨fun _ => ⟨?_, ?_⟩, fun h => by cases h⟩
      · intro b hb
        simp only [GridMap2D.leastSquaresProblem, List.mem_map] at hb
        obtain ⟨i, _, rfl⟩ := hb
        norm_num
      · intro b hb
        simp only [GridMap2D.leastSquaresProblem, List.mem_map] at hb
        obtain ⟨i, _, rfl⟩ := hb
        norm_num)
  exact ⟨usable, m1, h1, h5⟩

/-! ## Sampling loop lemmas -/

theorem incrementAt_comm {α : Type} [LinearOrderedField α] (counts : List α) (i j : Nat) :
    incrementAt (incrementAt counts i) j = incrementAt (incrementAt counts j) i := by
  induction counts generalizing i j with
  | nil => cases i <;> cases j <;> rfl
  | cons c cs ih =>
    cases i with
    | zero =>
      cases j with
      | zero => rfl
      | succ j => rfl
    | succ i =>
      cases j with
      | zero => rfl
      | succ j =>
        simp only [incrementAt]
        rw [ih]

theorem unitCounts_eq_incrementAt {α : Type} [LinearOrderedField α] (k i : Nat) :
    (unitCounts k i : List α) = incrementAt (List.replicate k 0) i := by
  unfold unitCounts
  induction k generalizing i with
  | zero => cases i <;> rfl
  | succ k ih =>
    cases i with
    | zero => simp [List.replicate_succ, incrementAt]
    | succ i =>
      simp only [List.replicate_succ, List.set_cons_succ, incrementAt]
      rw [ih]

/-- Recording two samples gives the same map in either order. -/
theorem recordSample_comm {α : Type} [LinearOrderedField α] (k t1 m1 t2 m2 : Nat)
    (zx : List (Nat × List α)) :
    recordSample k t2 m2 (recordSample k t1 m1 zx)
      = recordSample k t1 m1 (recordSample k t2 m2 zx) := by
  induction zx with
  | nil =>
    simp only [recordSample]
    rcases Nat.lt_trichotomy t1 t2 with h | h | h
    · have h1 : ¬ t2 < t1 := by omega
      have h2 : ¬ t2 = t1 := by omega
      simp [recordSample, h, h1, h2]
    · subst h
      simp [recordSample, unitCounts_eq_incrementAt, incrementAt_comm]
    · have h1 : ¬ t1 < t2 := by omega
      have h2 : ¬ t1 = t2 := by omega
      simp [recordSample, h, h1, h2]
  | cons e rest ih =>
    obtain ⟨key, counts⟩ := e
    simp only [recordSample]
    split_ifs <;> simp only [recordSample] <;> split_ifs <;>
      first
        | rfl
        | omega
        | rw [ih]
        | (subst_vars
           simp [unitCounts_eq_incrementAt, incrementAt_comm])

theorem sampleLoop_eq_foldl {α : Type} [LinearOrderedField α] (k : Nat)
    (samples : List (Nat × Nat)) (zx : List (Nat × List α))
    (hrange : ∀ s ∈ samples, s.2 < k) :
    sampleLoop k samples zx
      = some (samples.foldl (fun zx1 s => recordSample k s.1 s.2 zx1) zx) := by
  induction samples generalizing zx with
  | nil => rfl
  | cons s rest ih =>
    obtain ⟨t, mid⟩ := s
    have h1 : mid < k := hrange (t, mid) (List.mem_cons_self _ _)
    simp only [sampleLoop, if_pos h1, List.foldl_cons]
    exact ih _ (fun s hs => hrange s (List.mem_cons_of_mem _ hs))

theorem mem_keys_recordSample {α : Type} [LinearOrderedField α] (k t mid : Nat)
    (zx : List (Nat × List α)) (key : Nat) :
    key ∈ (recordSample k t mid zx).map Prod.fst ↔ key = t ∨ key ∈ zx.map Prod.fst := by
  induction zx with
  | nil => simp [recordSample]
  | cons e rest ih =>
    obtain ⟨key1, counts⟩ := e
    simp only [recordSample]
    split_ifs with h1 h2
    · simp
    · subst h2
      simp
    · simp only [List.map_cons, List.mem_cons, ih]
      tauto

theorem sorted_keys_recordSample {α : Type} [LinearOrderedField α] (k t mid : Nat)
    (zx : List (Nat × List α)) (hs : (zx.map Prod.fst).Sorted (· < ·)) :
    ((recordSample k t mid zx).map Prod.fst).Sorted (· < ·) := by
  induction zx with
  | nil => simp [recordSample]
  | cons e rest ih =>
    obtain ⟨key1, counts⟩ := e
    simp only [List.map_cons, List.sorted_cons] at hs
    simp only [recordSample]
    split_ifs with h1 h2
    · simp only [List.map_cons, List.sorted_cons, List.mem_cons]
      refine ⟨?_, hs⟩
      rintro b (hb | hb)
      · rw [hb]
        exact h1
      · exact lt_trans h1 (hs.1 b hb)
    · simp only [List.map_cons, List.sorted_cons]
      exact hs
    · simp only [List.map_cons, List.sorted_cons]
      refine ⟨?_, ih hs.2⟩
      intro b hb
      rcases (mem_keys_recordSample k t mid rest b).mp hb with hb1 | hb1
      · rw [hb1]
        omega
      · exact hs.1 b hb1

theorem mem_keys_foldl {α : Type} [LinearOrderedField α] (k : Nat) (samples : List (Nat × Nat))
    (zx : List (Nat × List α)) (key : Nat) :
    key ∈ (samples.foldl (fun zx1 s => recordSample k s.1 s.2 zx1) zx).map Prod.fst ↔
      key ∈ zx.map Prod.fst ∨ ∃ s ∈ samples, s.1 = key := by
  induction samples generalizing zx with
  | nil => simp
  | cons s rest ih =>
    rw [List.foldl_cons, ih, mem_keys_recordSample]
    simp only [List.mem_cons, exists_eq_or_imp]
    constructor
    · rintro ((h | h) | h)
      · exact Or.inr (Or.inl h.symm)
      · exact Or.inl h
      · exact Or.inr (Or.inr h)
    · rintro (h | h | h)
      · exact Or.inl (Or.inr h)
      · exact Or.inl (Or.inl h.symm)
      · exact Or.inr h

theorem sorted_keys_foldl {α : Type} [LinearOrderedField α] (k : Nat)
    (samples : List (Nat × Nat)) (zx : List (Nat × List α))
    (hs : (zx.map Prod.fst).Sorted (· < ·)) :
    ((samples.foldl (fun zx1 s => recordSample k s.1 s.2 zx1) zx).map Prod.fst).Sorted
      (· < ·) := by
  induction samples generalizing zx with
  | nil => exact hs
  | cons s rest ih =>
    rw [List.foldl_cons]
    exact ih _ (sorted_keys_recordSample k s.1 s.2 zx hs)

/-- The map filled by the sampling loop does not depend on the order of the
samples. -/
theorem foldl_recordSample_perm {α : Type} [LinearOrderedField α] (k : Nat)
    (samples1 samples2 : List (Nat × Nat)) (hp : samples1.Perm samples2)
    (zx : List (Nat × List α)) :
    samples1.foldl (fun zx1 s => recordSample k s.1 s.2 zx1) zx
      = samples2.foldl (fun zx1 s => recordSample k s.1 s.2 zx1) zx :=
  hp.foldl_eq' (fun x _ y _ z => recordSample_comm k x.1 x.2 y.1 y.2 z) zx

/-- `GenerateEntropyVector` on samples whose measurement ids are in range: the
map filled by the sampling loop, read out by increasing key. -/
theorem generateEntropyVector_eq (m : GridMap2D ℝ) (num_steps k : Nat)
    (samples : List (Nat × Nat)) (hk : numMeasurements m.num_sources num_steps = some k)
    (hrange : ∀ s ∈ samples, s.2 < k) :
    m.GenerateEntropyVector Real.log num_steps samples
      = some
          ((samples.foldl (fun zx1 s => recordSample k s.1 s.2 zx1)
              ([] : List (Nat × List ℝ))).map
            (fun kv => columnEntropy Real.log (normalizeColumn kv.2)),
           (samples.foldl (fun zx1 s => recordSample k s.1 s.2 zx1)
              ([] : List (Nat × List ℝ))).map Prod.fst) := by
  simp only [GridMap2D.GenerateEntropyVector, hk, sampleLoop_eq_foldl k samples [] hrange,
    entropyVectorOfSamples_eq]

/-! ## Sampling loop theorems -/

/-- C15. The `trajectory_ids` returned by `GenerateEntropyVector` are strictly
increasing (hence free of duplicates), are the trajectory ids of the samples,
and are as many as the entries of `hzx`; the result does not depend on the
order in which the samples were drawn; and when there is a sample,
`PlanAhead` succeeds with the smallest trajectory id among those whose
entropy is maximal. -/
theorem trajectory_ids_increasing {Pose : Type} (decode : Nat → List Pose) (m : GridMap2D ℝ)
    (num_steps k : Nat) (samples : List (Nat × Nat))
    (hk : numMeasurements m.num_sources num_steps = some k)
    (hrange : ∀ s ∈ samples, s.2 < k) :
    ∃ (hzx : List ℝ) (ids : List Nat),
      m.GenerateEntropyVector Real.log num_steps samples = some (hzx, ids) ∧
      ids.Sorted (· < ·) ∧ ids.Nodup ∧ hzx.length = ids.length ∧
      (∀ t, t ∈ ids ↔ ∃ s ∈ samples, s.1 = t) ∧
      (∀ samples2 : List (Nat × Nat), samples2.Perm samples →
        m.GenerateEntropyVector Real.log num_steps samples2 = some (hzx, ids)) ∧
      (samples ≠ [] →
        ∃ i, ∃ hi : i < ids.length, ∃ e : ℝ,
          hzx[i]? = some e ∧ (∀ x ∈ hzx, x ≤ e) ∧
          PlanAhead decode hzx ids = .success (decode (ids.get ⟨i, hi⟩)) ∧
          ∀ j, ∀ hj : j < ids.length, ∀ e1 : ℝ, hzx[j]? = some e1 → (∀ x ∈ hzx, x ≤ e1) →
            ids.get ⟨i, hi⟩ ≤ ids.get ⟨j, hj⟩) := by
  have hsorted : ((samples.foldl (fun zx1 s => recordSample k s.1 s.2 zx1)
      ([] : List (Nat × List ℝ))).map Prod.fst).Sorted (· < ·) :=
    sorted_keys_foldl k samples [] (by simp)
  have hmem : ∀ t, t ∈ (samples.foldl (fun zx1 s => recordSample k s.1 s.2 zx1)
      ([] : List (Nat × List ℝ))).map Prod.fst ↔ ∃ s ∈ samples, s.1 = t := by
    intro t
    rw [mem_keys_foldl]
    simp
  have hnn : ∀ x ∈ (samples.foldl (fun zx1 s => recordSample k s.1 s.2 zx1)
      ([] : List (Nat × List ℝ))).map
        (fun kv => columnEntropy Real.log (normalizeColumn kv.2)), 0 ≤ x := by
    intro x hx
    obtain ⟨kv, _, rfl⟩ := List.mem_map.mp hx
    exact columnEntropy_nonneg _
  have hlen : ((samples.foldl (fun zx1 s => recordSample k s.1 s.2 zx1)
      ([] : List (Nat × List ℝ))).map
        (fun kv => columnEntropy Real.log (normalizeColumn kv.2))).length
      = ((samples.foldl (fun zx1 s => recordSample k s.1 s.2 zx1)
          ([] : List (Nat × List ℝ))).map Prod.fst).length := by
    simp
  have hperm : ∀ samples2 : List (Nat × Nat), samples2.Perm samples →
      m.GenerateEntropyVector Real.log num_steps samples2
        = m.GenerateEntropyVector Real.log num_steps samples := by
    intro samples2 hp
    rw [generateEntropyVector_eq m num_steps k samples2 hk
        (fun s hs => hrange s (hp.mem_iff.mp hs)),
      generateEntropyVector_eq m num_steps k samples hk hrange,
      foldl_recordSample_perm k samples2 samples hp]
  have hgen := generateEntropyVector_eq m num_steps k samples hk hrange
  generalize (samples.foldl (fun zx1 s => recordSample k s.1 s.2 zx1)
      ([] : List (Nat × List ℝ))).map
        (fun kv => columnEntropy Real.log (normalizeColumn kv.2)) = hzx
    at hgen hnn hlen
  generalize (samples.foldl (fun zx1 s => recordSample k s.1 s.2 zx1)
      ([] : List (Nat × List ℝ))).map Prod.fst = ids at hgen hsorted hmem hlen
  refine ⟨hzx, ids, hgen, hsorted, hsorted.nodup, hlen, hmem, ?_, ?_⟩
  · intro samples2 hp
    rw [hperm samples2 hp, hgen]
  · intro hne
    obtain ⟨s0, hs0⟩ := List.exists_mem_of_ne_nil samples hne
    have hid : s0.1 ∈ ids := (hmem s0.1).mpr ⟨s0, hs0, rfl⟩
    have hpos : 0 < hzx.length := by
      rw [hlen]
      exact List.length_pos_of_mem hid
    rcases argMaxLoop_spec hzx ids with ⟨_, hall⟩ | ⟨i, hi, hr, _, hbefore, hall⟩
    · exfalso
      have h1 := hall _ (List.getElem_mem hpos)
      have h2 := hnn _ (List.getElem_mem hpos)
      linarith
    · have hi2 : i < ids.length := hlen ▸ hi
      have hmax : ∀ x ∈ hzx, x ≤ hzx[i] := by
        intro x hx
        obtain ⟨j, hj, rfl⟩ := List.getElem_of_mem hx
        exact hall j hj
      refine ⟨i, hi2, hzx[i], List.getElem?_eq_getElem hi, hmax, ?_, ?_⟩
      · have h0 : ¬ hzx[i] < 0 := not_lt.mpr (hnn _ (List.getElem_mem hi))
        have hget : ids.getD i 0 = ids.get ⟨i, hi2⟩ := by
          rw [List.get_eq_getElem]
          exact List.getD_eq_getElem _ _ hi2
        simp only [PlanAhead, if_pos hlen, hr, if_neg h0, hget]
      · intro j hj e1 he1 hmax1
        obtain ⟨hj1, rfl⟩ := List.getElem?_eq_some.mp he1
        have hge : hzx[i] ≤ hzx[j] := hmax1 _ (List.getElem_mem hi)
        have hij : i ≤ j := by
          by_contra hlt
          have := hbefore j (not_le.mp hlt)
          linarith
        rcases Nat.eq_or_lt_of_le hij with heq | hlt
        · subst heq
          exact le_refl _
        · exact le_of_lt (hsorted.rel_get_of_lt (a := ⟨i, hi2⟩) (b := ⟨j, hj⟩) hlt)

/-- Witness of C15: one source, one step, three samples on two trajectories. -/
theorem trajectory_ids_increasing_witness :
    ∃ (hzx : List ℝ) (ids : List Nat),
      GridMap2D.GenerateEntropyVector Real.log
        { num_rows := 2, num_cols := 2, num_sources := 1, regularizer := (1 : ℝ),
          belief := fun _ _ => 1 / 4, viewed := [], measurements := [] }
        1 [(3, 0), (1, 1), (3, 1)] = some (hzx, ids) ∧
      ids.Sorted (· < ·) ∧ hzx.length = ids.length := by
  obtain ⟨hzx, ids, h1, h2, _, h4, _⟩ := trajectory_ids_increasing (fun id => [id])
    { num_rows := 2, num_cols := 2, num_sources := 1, regularizer := (1 : ℝ),
      belief := fun _ _ => 1 / 4, viewed := [], measurements := [] }
    1 2 [(3, 0), (1, 1), (3, 1)] (by decide) (by decide)
  exact ⟨hzx, ids, h1, h2, h4⟩

end radiation
